import Mathlib

/-!
# Verification of the asap7_sram .lib rewriting scripts

A shallow embedding of the three Python scripts of this repository:

* `fix_asap7_macros.py` — `scale_numbers_in_line`, `find_output_pin_line_ranges`,
  and pass 2 of `process_lib_file` (the scale-in-range rewriter);
* `remove_setup_falling.py` — the per-line loop of `clean_lib_file`
  (the delete-block rewriter);
* `update_lib_area.py` — the `LIB_AREA_RE.subn` substitution of `update_lib_file`.

Lines are modelled as Lean `String`s exactly as Python's file iteration yields
them (any trailing newline included); the `print` reporting and the file
system calls are outside the embedding except where a claim is about the
write plan, which is modelled explicitly at the end of the definitions.
All scanners work on `List Char`; the ASCII fragment of Python's `\w`, `\d`
and `\s` classes is used, which covers the Liberty files these tools read.
-/

namespace Asap7

/-! ## Character classes (ASCII fragment of Python's regex classes) -/

/-- Python `\s` (ASCII): space, tab, newline, carriage return, vertical tab, form feed. -/
def isPyWS (c : Char) : Bool :=
  c = ' ' || c = '\t' || c = '\n' || c = '\x0d' || c = '\x0b' || c = '\x0c'

/-- Python `\w` (ASCII): letters, digits and underscore. -/
def isWordChar (c : Char) : Bool :=
  c.isAlpha || c.isDigit || c = '_'

/-- The character class `[0-9.]` of `LIB_AREA_RE`. -/
def isAreaNumChar (c : Char) : Bool :=
  c.isDigit || c = '.'

/-- Case-insensitive character comparison (ASCII), for `re.IGNORECASE`. -/
def ciEq (a b : Char) : Bool :=
  a.toLower = b.toLower

/-! ## Small string helpers used by the Python code -/

/-- `sub in s` — Python's substring containment. -/
def containsSub (s sub : String) : Bool :=
  go s.data sub.data
where
  go : List Char → List Char → Bool
    | _, [] => true
    | [], _ :: _ => false
    | c :: rest, p => (p.isPrefixOf (c :: rest)) || go rest p

/-- `s.count(ch)` — number of occurrences of a character. -/
def countChar (s : String) (ch : Char) : Nat :=
  s.data.countP (· = ch)

/-- `s.strip()` — Python strip of leading and trailing whitespace. -/
def stripPy (s : String) : String :=
  String.mk (((s.data.dropWhile isPyWS).reverse.dropWhile isPyWS).reverse)

/-- `s.lstrip()` — Python strip of leading whitespace. -/
def lstripPy (s : String) : String :=
  String.mk (s.data.dropWhile isPyWS)

/-- `s.startswith(p)`. -/
def startsWithPy (s p : String) : Bool :=
  p.data.isPrefixOf s.data

/-! ## The numeric token pattern of `scale_numbers_in_line`

The Python pattern is `(?<!\w)(-?\d+(?:\.\d*)?(?:[eE]-?\d+)?)(?!\w)`.
A matched token is kept in its parsed form. -/

/-- A parse of the token pattern `-?\d+(?:\.\d*)?(?:[eE]-?\d+)?`:
sign, integer digits, optional dot with fractional digits, optional
exponent marker with optional minus and exponent digits. -/
structure NumTok where
  neg : Bool
  ip : List Char
  hasDot : Bool
  fp : List Char
  hasExp : Bool
  eneg : Bool
  ep : List Char
deriving DecidableEq

/-- Number of characters of the source text the token covers. -/
def NumTok.len (t : NumTok) : Nat :=
  (if t.neg then 1 else 0) + t.ip.length +
  (if t.hasDot then 1 + t.fp.length else 0) +
  (if t.hasExp then 1 + (if t.eneg then 1 else 0) + t.ep.length else 0)

/-- The lookahead `(?!\w)` at the character following a candidate token. -/
def lookaheadOK : Option Char → Bool
  | none => true
  | some c => !(isWordChar c)

/-- Match the token pattern at the head of `cs`, with Python's backtracking
order: greedy groups shrink from the right when the lookahead fails.  Every
shrunk candidate except the full greedy token and the bare `-?\d+` one is
followed by a digit or by the `e`/`E` marker — a word character — so only
those two candidates can pass `(?!\w)`; the bare integer candidate arises
exactly when a decimal point follows it, and `.` always passes the
lookahead. -/
def matchNumTok (cs : List Char) : Option NumTok :=
  let (neg, cs1) :=
    match cs with
    | '-' :: t => (true, t)
    | _ => (false, cs)
  let ip := cs1.takeWhile Char.isDigit
  if ip.isEmpty then none else
  let cs2 := cs1.drop ip.length
  let (hasDot, fp, cs3) :=
    match cs2 with
    | '.' :: t =>
      let fp := t.takeWhile Char.isDigit
      (true, fp, t.drop fp.length)
    | _ => (false, ([] : List Char), cs2)
  let (hasExp, eneg, ep, cs4) :=
    match cs3 with
    | e :: t =>
      if e = 'e' || e = 'E' then
        let (en, t2) :=
          match t with
          | '-' :: t2 => (true, t2)
          | _ => (false, t)
        let ep := t2.takeWhile Char.isDigit
        if ep.isEmpty then (false, false, ([] : List Char), cs3)
        else (true, en, ep, t2.drop ep.length)
      else (false, false, ([] : List Char), cs3)
    | [] => (false, false, ([] : List Char), cs3)
  if lookaheadOK cs4.head? then
    some ⟨neg, ip, hasDot, fp, hasExp, eneg, ep⟩
  else if hasDot then
    some ⟨neg, ip, false, [], false, false, []⟩
  else none

/-! ## Binary64 floats and `%.8g`, for the `replacer`

Python computes `float(match.group(1)) / 1000.0` in IEEE-754 binary64 and
formats the result with `f"{...:.8g}"`; both are modelled exactly, with
the float as an integer significand times a power of two. -/

/-- A binary64 value: `(-1)^sign · m · 2^e`, or a signed infinity.  NaN
cannot arise from the token grammar. -/
inductive F64 where
  | finite (sign : Bool) (m : Nat) (e : Int)
  | inf (sign : Bool)
deriving DecidableEq

/-- Round-half-to-even integer division `a / b`. -/
def roundHalfEven (a b : Nat) : Nat :=
  let q := a / b
  let r := a % b
  if b < 2 * r then q + 1
  else if 2 * r < b then q
  else if q % 2 = 1 then q + 1 else q

/-- Fuel-driven `⌊log₂ n⌋`, structurally recursive so that concrete values
reduce in the kernel; `n` itself is always enough fuel. -/
def natLog2Go : Nat → Nat → Nat
  | 0, _ => 0
  | fuel + 1, n => if n < 2 then 0 else natLog2Go fuel (n / 2) + 1

def natLog2 (n : Nat) : Nat := natLog2Go n n

/-- Fuel-driven `⌊log₁₀ n⌋`, structurally recursive. -/
def natLog10Go : Nat → Nat → Nat
  | 0, _ => 0
  | fuel + 1, n => if n < 10 then 0 else natLog10Go fuel (n / 10) + 1

def natLog10 (n : Nat) : Nat := natLog10Go n n

/-- Whether `num / den ≥ 2 ^ e`, for positive `num` and `den`. -/
def gePow2 (num den : Nat) (e : Int) : Bool :=
  if 0 ≤ e then den * 2 ^ e.toNat ≤ num else den ≤ num * 2 ^ (-e).toNat

/-- `⌊log₂ (num/den)⌋`: the estimate from the integer logarithms is exact
or one too high, and a single comparison settles which. -/
def binExp (num den : Nat) : Int :=
  let e0 : Int := (natLog2 num : Int) - (natLog2 den : Int)
  if gePow2 num den e0 then e0 else e0 - 1

/-- `num / den` scaled by `2 ^ t` and rounded half to even. -/
def scaledSig (num den : Nat) (t : Int) : Nat :=
  if 0 ≤ t then roundHalfEven (num * 2 ^ t.toNat) den
  else roundHalfEven num (den * 2 ^ (-t).toNat)

/-- The binary64 value nearest to `(-1)^sign · num / den` (round to
nearest, ties to even), as Python's `float` parsing and division round. -/
def nearestF64 (sign : Bool) (num den : Nat) : F64 :=
  if num = 0 then .finite sign 0 0 else
  let e := binExp num den
  if e < -1022 then .finite sign (scaledSig num den 1074) (-1074)
  else
    let m := scaledSig num den (52 - e)
    let (m', e') := if m = 2 ^ 53 then (2 ^ 52, e + 1) else (m, e)
    if 1023 < e' then .inf sign else .finite sign m' (e' - 52)

/-- Python's `x / 1000.0` on a binary64 value (correctly rounded). -/
def f64DivBy1000 : F64 → F64
  | .finite s m e =>
    if 0 ≤ e then nearestF64 s (m * 2 ^ e.toNat) 1000
    else nearestF64 s m (1000 * 2 ^ (-e).toNat)
  | .inf s => .inf s

/-- Whether `num / den ≥ 10 ^ x`, for positive `num` and `den`. -/
def gePow10 (num den : Nat) (x : Int) : Bool :=
  if 0 ≤ x then den * 10 ^ x.toNat ≤ num else den ≤ num * 10 ^ (-x).toNat

/-- `⌊log₁₀ (num/den)⌋`, by estimate and one comparison. -/
def decExp (num den : Nat) : Int :=
  let x0 : Int := (natLog10 num : Int) - (natLog10 den : Int)
  if gePow10 num den x0 then x0 else x0 - 1

/-- `num / den` scaled by `10 ^ t` and rounded half to even. -/
def scaledDec (num den : Nat) (t : Int) : Nat :=
  if 0 ≤ t then roundHalfEven (num * 10 ^ t.toNat) den
  else roundHalfEven num (den * 10 ^ (-t).toNat)

/-- Decimal digits of a positive natural number, most significant first. -/
def natDigits (n : Nat) : List Char := Nat.toDigits 10 n

/-- Python's `f"{x:.8g}"`: round the exact binary value to 8 significant
decimal digits (half to even), strip trailing zeros, and use fixed
notation when the decimal exponent `X` satisfies `-4 ≤ X < 8`, otherwise
scientific notation with a signed, at least two-digit exponent. -/
def format8g : F64 → String
  | .inf s => if s then "-inf" else "inf"
  | .finite s m e =>
    if m = 0 then (if s then "-0" else "0") else
    let (num, den) := if 0 ≤ e then (m * 2 ^ e.toNat, 1) else (m, 2 ^ (-e).toNat)
    let x := decExp num den
    let d := scaledDec num den (7 - x)
    let (d', x') := if d = 10 ^ 8 then (10 ^ 7, x + 1) else (d, x)
    let ds := ((natDigits d').reverse.dropWhile (· = '0')).reverse
    let body :=
      if -4 ≤ x' ∧ x' < 8 then
        if 0 ≤ x' then
          let k := x'.toNat + 1
          if ds.length ≤ k then ds ++ List.replicate (k - ds.length) '0'
          else ds.take k ++ '.' :: ds.drop k
        else
          '0' :: '.' :: (List.replicate (-(x' + 1)).toNat '0' ++ ds)
      else
        let mant :=
          match ds with
          | [] => []
          | h :: t => if t.isEmpty then [h] else h :: '.' :: t
        let xd := natDigits (if x' < 0 then -x' else x').toNat
        let xd' := if xd.length < 2 then '0' :: xd else xd
        mant ++ 'e' :: (if x' < 0 then '-' else '+') :: xd'
    String.mk (if s then '-' :: body else body)

/-- Value of a digit list as a natural number, most significant first. -/
def digitsVal (ds : List Char) : Nat :=
  ds.foldl (fun a c => 10 * a + (c.toNat - 48)) 0

/-- Numerator of the token's exact decimal value. -/
def NumTok.valNum (t : NumTok) : Nat :=
  if t.hasExp && !t.eneg then digitsVal (t.ip ++ t.fp) * 10 ^ digitsVal t.ep
  else digitsVal (t.ip ++ t.fp)

/-- Denominator of the token's exact decimal value. -/
def NumTok.valDen (t : NumTok) : Nat :=
  10 ^ t.fp.length * (if t.hasExp && t.eneg then 10 ^ digitsVal t.ep else 1)

/-- The `replacer` of `scale_numbers_in_line`: parse the matched token as a
float, divide by `1000.0`, and format with `%.8g`.  The `except` branch of
the Python code is unreachable, every matched token being valid `float`
syntax. -/
def replaceTok (t : NumTok) : String :=
  format8g (f64DivBy1000 (nearestF64 t.neg t.valNum t.valDen))

/-- The lookbehind `(?<!\w)` at the character preceding a position. -/
def lookbehindOK : Option Char → Bool
  | none => true
  | some c => !(isWordChar c)

/-- The scan of `pattern.sub(replacer, line)`: at each position whose
previous character is not a word character, try the token pattern; on a
match emit the replacement and resume after the matched text, otherwise
copy one character.  `fuel` only bounds the number of steps so that the
recursion is structural and kernel-computable; each step consumes at
least one character, so the input length is always enough fuel. -/
def scaleGo : Nat → Option Char → List Char → List Char
  | 0, _, cs => cs
  | _, _, [] => []
  | fuel + 1, prev, c :: rest =>
    if lookbehindOK prev then
      match matchNumTok (c :: rest) with
      | some tok =>
        (replaceTok tok).data ++
          scaleGo fuel (((c :: rest).take tok.len).getLast?) (rest.drop (tok.len - 1))
      | none => c :: scaleGo fuel (some c) rest
    else c :: scaleGo fuel (some c) rest

/-- `scale_numbers_in_line` of `fix_asap7_macros.py`. -/
def scale_numbers_in_line (line : String) : String :=
  String.mk (scaleGo line.data.length none line.data)

/-! ## Pass 1 of `fix_asap7_macros.py`: `find_output_pin_line_ranges` -/

/-- The loop state of `find_output_pin_line_ranges`: brace depth, whether a
pin/bus block is open, its output flag, the recorded start line and start
depth, and the ranges collected so far.  The cleared `block_start_info`
dictionary is modelled by the zero defaults its `.get` calls supply. -/
structure ScanSt where
  depth : Int
  inPin : Bool
  isOut : Bool
  startLine : Nat
  startDepth : Int
  acc : List (Nat × Nat)
deriving DecidableEq

def scanInit : ScanSt := ⟨0, false, false, 0, 0, []⟩

/-- One iteration of the pass-1 loop, for the 1-based line `lineNum`:
open a block on a `pin (`/`bus (` header when none is open, update the
depth by the line's brace counts, latch the output flag on a
`direction`…`output` line, and close the block (recording its range when
it is an output) once the depth is back at or below the start depth. -/
def pinScanStep (st : ScanSt) (lineNum : Nat) (line : String) : ScanSt :=
  let s := stripPy line
  let st1 :=
    if (startsWithPy s "pin (" || startsWithPy s "bus (") && !st.inPin then
      { st with inPin := true, isOut := false, startLine := lineNum, startDepth := st.depth }
    else st
  let st2 :=
    { st1 with depth := st1.depth + (countChar line '{' : Int) - (countChar line '}' : Int) }
  let st3 :=
    if st2.inPin && containsSub s "direction" && containsSub s "output" then
      { st2 with isOut := true }
    else st2
  if st3.inPin && st3.depth ≤ st3.startDepth then
    { st3 with
      acc := st3.acc ++ (if st3.isOut then [(st3.startLine, lineNum)] else []),
      inPin := false, isOut := false, startLine := 0, startDepth := 0 }
  else st3

def pinScanGo (st : ScanSt) (lineNum : Nat) : List String → ScanSt
  | [] => st
  | l :: ls => pinScanGo (pinScanStep st lineNum l) (lineNum + 1) ls

/-- `find_output_pin_line_ranges` of `fix_asap7_macros.py`: the 1-based
inclusive line ranges of the pin/bus blocks carrying an output direction. -/
def find_output_pin_line_ranges (lines : List String) : List (Nat × Nat) :=
  (pinScanGo scanInit 1 lines).acc

/-! ## Pass 2 of `fix_asap7_macros.py`: the scale-in-range rewrite -/

/-- The pass-2 loop state: the index of the next range being tracked, and
the `is_in_output_range` and `is_scaling_values` flags. -/
structure P2St where
  idx : Nat
  inR : Bool
  scaling : Bool
deriving DecidableEq

def p2Init : P2St := ⟨0, false, false⟩

/-- Whether pass 2 treats the line as an index row:
`line.lstrip().startswith(('index_1', 'index_2'))`. -/
def isIndexLine (line : String) : Bool :=
  startsWithPy (lstripPy line) "index_1" || startsWithPy (lstripPy line) "index_2"

/-- One iteration of the pass-2 loop: enter the current range when the line
number reaches its start; inside a range, set the values flag on a
`values (` line, rescale when the flag holds or the line is an index row,
and clear the flag on a `);` line; leave the range and advance the index
when the line number reaches its end. -/
def p2Step (ranges : List (Nat × Nat)) (st : P2St) (lineNum : Nat) (line : String) :
    String × P2St :=
  let st1 :=
    match ranges.get? st.idx with
    | some r => if r.1 ≤ lineNum then { st with inR := true } else st
    | none => st
  let (out, st2) :=
    if st1.inR then
      let sc := if containsSub line "values (" then true else st1.scaling
      let out := if sc || isIndexLine line then scale_numbers_in_line line else line
      let sc2 := if containsSub line ");" then false else sc
      (out, { st1 with scaling := sc2 })
    else (line, st1)
  let st3 :=
    match ranges.get? st2.idx with
    | some r => if r.2 ≤ lineNum then { st2 with inR := false, idx := st2.idx + 1 } else st2
    | none => st2
  (out, st3)

def p2Go (ranges : List (Nat × Nat)) (st : P2St) (lineNum : Nat) : List String → List String
  | [] => []
  | l :: ls =>
    let (out, st') := p2Step ranges st lineNum l
    out :: p2Go ranges st' (lineNum + 1) ls

/-- Pass 2 of `process_lib_file`: rewrite `lines` under the given ranges. -/
def processPass2 (lines : List String) (ranges : List (Nat × Nat)) : List String :=
  p2Go ranges p2Init 1 lines

/-- The whole line transformation of `process_lib_file` of
`fix_asap7_macros.py`: pass 1 identifies the output pin ranges, pass 2
rewrites within them.  Reading the input and writing `modified_lines` to
the output path surround this computation in the Python code. -/
def process_lib_file (lines : List String) : List String :=
  processPass2 lines (find_output_pin_line_ranges lines)

/-- The per-line transform decision of pass 2, as a boolean classifier: a
line is passed through `scale_numbers_in_line` exactly when it lies in a
selected span and, after the `values (` check, the values flag holds or
the line is an index row.  The flag is set by `values (` and cleared by
`);` only on lines inside selected spans, and persists across the gap
between consecutive selected spans. -/
def c1Step (ranges : List (Nat × Nat)) (st : P2St) (lineNum : Nat) (line : String) :
    Bool × P2St :=
  let st1 :=
    match ranges.get? st.idx with
    | some r => if r.1 ≤ lineNum then { st with inR := true } else st
    | none => st
  let (b, st2) :=
    if st1.inR then
      let sc := if containsSub line "values (" then true else st1.scaling
      let b := sc || isIndexLine line
      let sc2 := if containsSub line ");" then false else sc
      (b, { st1 with scaling := sc2 })
    else (false, st1)
  let st3 :=
    match ranges.get? st2.idx with
    | some r => if r.2 ≤ lineNum then { st2 with inR := false, idx := st2.idx + 1 } else st2
    | none => st2
  (b, st3)

def c1Go (ranges : List (Nat × Nat)) (st : P2St) (lineNum : Nat) : List String → List Bool
  | [] => []
  | l :: ls =>
    let (b, st') := c1Step ranges st lineNum l
    b :: c1Go ranges st' (lineNum + 1) ls

/-- Which lines of the file the rescale applies to, per the classifier. -/
def c1Scaled (lines : List String) : List Bool :=
  c1Go (find_output_pin_line_ranges lines) p2Init 1 lines

/-! ## `remove_setup_falling.py`: the loop of `clean_lib_file` -/

/-- Consume an exact literal at the head of a character list. -/
def dropLit : List Char → List Char → Option (List Char)
  | [], cs => some cs
  | _ :: _, [] => none
  | p :: ps, c :: cs => if c = p then dropLit ps cs else none

/-- The anchored header pattern `^\s*timing\s*\(\s*\)\s*\{` applied by
`re.search` to the stripped line: with the leading `^` (and no MULTILINE),
it can match only at position 0. -/
def timingHdr (s : String) : Bool :=
  let r1 := s.data.dropWhile isPyWS
  match dropLit "timing".data r1 with
  | none => false
  | some r2 =>
    match r2.dropWhile isPyWS with
    | '(' :: r4 =>
      match r4.dropWhile isPyWS with
      | ')' :: r6 =>
        match r6.dropWhile isPyWS with
        | '{' :: _ => true
        | _ => false
      | _ => false
    | _ => false

/-- Try `related_pin\s*:\s*"clk"\s*;` at the head of `cs`. -/
def clkAt (cs : List Char) : Bool :=
  (do
    let r1 ← dropLit "related_pin".data cs
    let r2 ← dropLit [':'] (r1.dropWhile isPyWS)
    let r3 ← dropLit "\"clk\"".data (r2.dropWhile isPyWS)
    dropLit [';'] (r3.dropWhile isPyWS)).isSome

/-- Try `timing_type\s*:\s*setup_falling\s*;` at the head of `cs`. -/
def setupFallingAt (cs : List Char) : Bool :=
  (do
    let r1 ← dropLit "timing_type".data cs
    let r2 ← dropLit [':'] (r1.dropWhile isPyWS)
    let r3 ← dropLit "setup_falling".data (r2.dropWhile isPyWS)
    dropLit [';'] (r3.dropWhile isPyWS)).isSome

/-- `re.search` of a pattern with no anchor: try every start position. -/
def searchAny (p : List Char → Bool) : List Char → Bool
  | [] => p []
  | c :: rest => p (c :: rest) || searchAny p rest

/-- `re.search(r'related_pin\s*:\s*"clk"\s*;', s)` as a boolean. -/
def hasClkPat (s : String) : Bool := searchAny clkAt s.data

/-- `re.search(r'timing_type\s*:\s*setup_falling\s*;', s)` as a boolean. -/
def hasSetupPat (s : String) : Bool := searchAny setupFallingAt s.data

/-- The loop state of `clean_lib_file`: `in_timing_block`, `brace_level`,
the buffered block lines, and the two condition flags. -/
structure CleanSt where
  inT : Bool
  lvl : Int
  buf : List String
  fClk : Bool
  fSetup : Bool
deriving DecidableEq

def cleanInit : CleanSt := ⟨false, 0, [], false, false⟩

/-- One iteration of the `clean_lib_file` loop: the lines this input line
causes to be written to the output, the number of blocks removed here
(0 or 1), and the new state.  A `timing ( ) {` header while no block is
open starts a block at level 1 with the header buffered; inside a block,
lines are buffered, the two condition regexes update the flags, and when
the level reaches 0 the buffer is flushed or, when both flags hold,
discarded; outside a block the line is written through. -/
def cleanStep (st : CleanSt) (line : String) : List String × Nat × CleanSt :=
  let s := stripPy line
  if timingHdr s && !st.inT then
    ([], 0, ⟨true, 1, [line], false, false⟩)
  else if st.inT then
    let buf := st.buf ++ [line]
    let fc := st.fClk || hasClkPat s
    let fs := st.fSetup || hasSetupPat s
    let lvl := st.lvl + (countChar line '{' : Int) - (countChar line '}' : Int)
    if lvl = 0 then
      if fc && fs then ([], 1, ⟨false, 0, [], fc, fs⟩)
      else (buf, 0, ⟨false, 0, [], fc, fs⟩)
    else ([], 0, ⟨true, lvl, buf, fc, fs⟩)
  else ([line], 0, st)

def cleanGo (st : CleanSt) : List String → List String × Nat × CleanSt
  | [] => ([], 0, st)
  | l :: ls =>
    let (o, n, st') := cleanStep st l
    let (os, ns, stf) := cleanGo st' ls
    (o ++ os, n + ns, stf)

/-- The whole loop of `clean_lib_file` of `remove_setup_falling.py`: the
lines written to the temporary file (which then replaces the original via
`shutil.move`) and the removed-blocks count.  A buffer still held when the
input ends is dropped: the loop simply finishes and the move happens
regardless. -/
def clean_lib_file (lines : List String) : List String × Nat :=
  let (os, ns, _) := cleanGo cleanInit lines
  (os, ns)

/-! ## `update_lib_area.py`: the `LIB_AREA_RE.subn` substitution -/

/-- Consume a case-insensitive literal at the head of a character list. -/
def dropLitCI : List Char → List Char → Option (List Char)
  | [], cs => some cs
  | _ :: _, [] => none
  | p :: ps, c :: cs => if ciEq c p then dropLitCI ps cs else none

/-- Try `(^\s*area\s*:\s*)[0-9.]+(\s*;)` at the head of `cs`.  The `^`
condition — start of string or right after a newline, `re.MULTILINE` — is
given by `anchored`.  On success: the lengths of group 1 (`\s*area\s*:\s*`),
of the matched `[0-9.]+` number, and of group 2 (`\s*;`).  Every `\s*` is
consumed greedily; since each is followed by a non-whitespace required
piece, no backtracking arises. -/
def areaMatch (anchored : Bool) (cs : List Char) : Option (Nat × Nat × Nat) :=
  if !anchored then none else
  let r1 := cs.dropWhile isPyWS
  match dropLitCI "area".data r1 with
  | none => none
  | some r2 =>
    match r2.dropWhile isPyWS with
    | ':' :: r4 =>
      let r5 := r4.dropWhile isPyWS
      let num := r5.takeWhile isAreaNumChar
      if num.isEmpty then none else
      let r6 := r5.drop num.length
      match r6.dropWhile isPyWS with
      | ';' :: r8 => some (cs.length - r5.length, num.length, r6.length - r8.length)
      | _ => none
    | _ => none

/-- The scan of `re.subn` for `LIB_AREA_RE`: visit positions left to
right, tracking whether the position is at the string start or right after
a newline; on a match emit group 1, the replacement, group 2, resume after
the match; otherwise copy one character.  Returns the new text and the
count of replacements.  `fuel` only bounds the number of steps so that the
recursion is structural and kernel-computable; each step consumes at least
one character, so the input length is always enough fuel. -/
def subnAreaGo : Nat → Bool → List Char → List Char → List Char × Nat
  | 0, _, cs, _ => (cs, 0)
  | _, _, [], _ => ([], 0)
  | fuel + 1, anchored, c :: rest, repl =>
    match areaMatch anchored (c :: rest) with
    | some (g1, n, g2) =>
      let tot := g1 + n + g2
      let (os, k) :=
        subnAreaGo fuel (((c :: rest).take tot).getLast? = some '\n') (rest.drop (tot - 1)) repl
      ((c :: rest).take g1 ++ repl ++ ((c :: rest).drop (g1 + n)).take g2 ++ os, k + 1)
    | none =>
      let (os, k) := subnAreaGo fuel (c = '\n') rest repl
      (c :: os, k)

/-- `update_lib_file` of `update_lib_area.py`, on the file's content, with
the formatted area string precomputed by the caller (`f"{area:f}"` with
trailing zeros and trailing point stripped): `none` models the count-zero
path, which warns and leaves the file unwritten; `some` models the
successful write of the substituted content over the file. -/
def update_lib_file (content : String) (formattedArea : String) : Option String :=
  let (nc, cnt) := subnAreaGo content.data.length true content.data formattedArea.data
  if cnt = 0 then none else some (String.mk nc)

/-- The replacement count `re.subn` reports for the content. -/
def updateSubnCount (content : String) (formattedArea : String) : Nat :=
  (subnAreaGo content.data.length true content.data formattedArea.data).2

/-! ## The write plans of the three tools, for the atomicity claim -/

/-- Destinations a tool's final write phase touches. -/
inductive WDst where
  | target
  | temp
deriving DecidableEq

/-- File-writing steps a tool performs for one processed file. -/
inductive WStep where
  | write (d : WDst)
  | moveTempToTarget
deriving DecidableEq

/-- `fix_asap7_macros.py`, `process_lib_file` lines 135-136:
`open(output_path, 'w')` and `writelines` — a direct write of the
destination (which is the input file itself when no output was given). -/
def fixWritePlan : List WStep := [.write .target]

/-- `remove_setup_falling.py`, `clean_lib_file` lines 30 and 120: the
output is written to `filename + ".tmp"` while scanning, then
`shutil.move(temp_filename, filename)` replaces the original. -/
def cleanWritePlan : List WStep := [.write .temp, .moveTempToTarget]

/-- `update_lib_area.py`, `update_lib_file` lines 141-142:
`open(lib_file_path, 'w')` and write — a direct write of the .lib file. -/
def updateWritePlan : List WStep := [.write .target]

/-- The write discipline the spec claims of every tool: nothing is written
directly to the destination; the content goes to a temporary file and a
rename puts it in place. -/
def atomicTempPlan (p : List WStep) : Bool :=
  p.all (fun s => !(s == WStep.write WDst.target)) && p.contains WStep.moveTempToTarget

/-! ## Derived notions the claims quantify over -/

/-- Whether some position of the line admits a match of the numeric token
pattern, lookbehind and lookahead included — i.e. the line contains a
free-standing numeric token.  Every position is examined, one character at
a time, which covers every position the substitution scan can visit. -/
def freeGo (prev : Option Char) : List Char → Bool
  | [] => false
  | c :: rest => (lookbehindOK prev && (matchNumTok (c :: rest)).isSome) || freeGo (some c) rest

def hasFreeNumToken (s : String) : Bool := freeGo none s.data

/-- The brace contribution of one line: `line.count('{') - line.count('}')`. -/
def lineBrace (l : String) : Int :=
  (countChar l '{' : Int) - (countChar l '}' : Int)

/-- The brace level after a timing-block body prefix, the header having set
it to 1. -/
def timingLevel (body : List String) : Int :=
  1 + (body.map lineBrace).sum

/-- A well-formed timing block as `clean_lib_file` delimits one: a header
line matching the timing-header pattern, followed by a nonempty body whose
running brace level first returns to 0 exactly at its last line. -/
def isTimingBlockB : List String → Bool
  | [] => false
  | h :: body =>
    timingHdr (stripPy h) &&
    !body.isEmpty &&
    (List.range (body.length - 1)).all (fun k => !(timingLevel (body.take (k + 1)) == 0)) &&
    (timingLevel body == 0)

/-- A timing block left open to the end of the input: a header line whose
body (possibly empty) never brings the brace level back to 0. -/
def isOpenBlockB : List String → Bool
  | [] => false
  | h :: body =>
    timingHdr (stripPy h) &&
    (List.range body.length).all (fun k => !(timingLevel (body.take (k + 1)) == 0))

/-- The removal condition of `clean_lib_file` on a block: some body line
matches the `related_pin : "clk";` pattern and some body line matches the
`timing_type : setup_falling;` pattern.  The header line is not examined:
the loop resets both flags when it enters the block. -/
def removableBlockB : List String → Bool
  | [] => false
  | _ :: body =>
    (body.any fun l => hasClkPat (stripPy l)) && (body.any fun l => hasSetupPat (stripPy l))

/-- A segmentation of a well-formed .lib file for the line-count claim:
chunks of lines containing no timing header, alternating with complete
timing blocks. -/
inductive LibSeg where
  | plain (ls : List String)
  | tblock (ls : List String)

/-- The lines of a segment. -/
def LibSeg.lines : LibSeg → List String
  | .plain ls => ls
  | .tblock ls => ls

/-- The file a segment list denotes. -/
def segsJoin (segs : List LibSeg) : List String :=
  (segs.map LibSeg.lines).flatten

/-- Well-formedness of a segment. -/
def LibSeg.wf : LibSeg → Bool
  | .plain ls => ls.all fun l => !timingHdr (stripPy l)
  | .tblock ls => isTimingBlockB ls

/-- The total number of lines belonging to removable blocks. -/
def removedLines (segs : List LibSeg) : Nat :=
  (segs.map fun s =>
    match s with
    | .plain _ => 0
    | .tblock ls => if removableBlockB ls then ls.length else 0).sum

/-- One `LIB_AREA_RE` match in decomposed form: the unmatched text before
it, the pieces of group 1 (`\s*`, the four letters matching `area` up to
case, `\s*`, then `:` and `\s*`), the matched `[0-9.]+` number, and the
whitespace of group 2 before its `;`. -/
structure AreaChunk where
  u : List Char
  ws1 : List Char
  aw : List Char
  ws2 : List Char
  ws3 : List Char
  num : List Char
  ws4 : List Char

/-- Group 1 of the match: `\s*area\s*:\s*`. -/
def AreaChunk.g1 (c : AreaChunk) : List Char :=
  c.ws1 ++ c.aw ++ c.ws2 ++ ':' :: c.ws3

/-- The whole matched text: group 1, the number, group 2 (`\s*;`). -/
def AreaChunk.matched (c : AreaChunk) : List Char :=
  c.g1 ++ c.num ++ c.ws4 ++ [';']

/-- Unmatched text then matched text. -/
def AreaChunk.text (c : AreaChunk) : List Char :=
  c.u ++ c.matched

/-- The chunk after substitution: group 1, the replacement, group 2. -/
def AreaChunk.replaced (c : AreaChunk) (repl : List Char) : List Char :=
  c.u ++ c.g1 ++ repl ++ c.ws4 ++ [';']

/-- Structural validity of a chunk: whitespace pieces are whitespace, the
`area` letters match case-insensitively, the number is a nonempty run of
`[0-9.]` characters. -/
def AreaChunk.ok (c : AreaChunk) : Bool :=
  c.ws1.all isPyWS && (dropLitCI "area".data c.aw == some []) &&
  (c.aw.all fun ch => !isPyWS ch) &&
  c.ws2.all isPyWS && c.ws3.all isPyWS &&
  !c.num.isEmpty && c.num.all isAreaNumChar && c.ws4.all isPyWS

/-- No position inside `u` admits an `areaMatch`, the text after `u` being
`rest`; the anchor flag is threaded per character. -/
def plainScanB (anch : Bool) : List Char → List Char → Bool
  | [], _ => true
  | c :: t, rest =>
    !(areaMatch anch (c :: (t ++ rest))).isSome && plainScanB (c = '\n') t rest

/-- The anchor flag after consuming the given characters. -/
def anchAfter (anch : Bool) : List Char → Bool
  | [] => anch
  | c :: t => anchAfter (c = '\n') t

/-- The text a chunk list followed by a tail denotes. -/
def chunksText : List AreaChunk → List Char → List Char
  | [], w => w
  | c :: cs, w => c.text ++ chunksText cs w

/-- The scan conditions making `chunksText chunks w` parse as exactly these
matches: each chunk is valid, its unmatched text admits no match, its
match starts at an anchored position, and the final tail admits no match.
After a match the previous character is the `;`, so the anchor is off. -/
def chunksScanOK (anch : Bool) : List AreaChunk → List Char → Bool
  | [], w => plainScanB anch w []
  | c :: cs, w =>
    c.ok && plainScanB anch c.u (c.matched ++ chunksText cs w) &&
    anchAfter anch c.u && chunksScanOK false cs w

/-- The text after substituting every chunk's number. -/
def chunksReplaced (repl : List Char) : List AreaChunk → List Char → List Char
  | [], w => w
  | c :: cs, w => c.replaced repl ++ chunksReplaced repl cs w

/-- Characters that cannot interact with any piece of the area pattern:
`[0-9.]` characters that are not whitespace, none of the (case-folded)
letters of `area`, and neither `:` nor `;`.  Both a matched number and the
formatted replacement consist of such characters, which is what makes a
second scan retrace the first. -/
def simSafe (cs : List Char) : Bool :=
  !cs.isEmpty && cs.all fun c =>
    isAreaNumChar c && !isPyWS c &&
    !ciEq c 'a' && !ciEq c 'r' && !ciEq c 'e' && !(c == ':') && !(c == ';')

/-- Two suffixes that agree except that where one holds `num` the other
holds `repl` (with the same tail after it), or are equal outright. -/
def NRel (num repl tailT : List Char) (X Y : List Char) : Prop :=
  X = Y ∨ ∃ d, X = d ++ num ++ tailT ∧ Y = d ++ repl ++ tailT

/-- The pass-1 invariant before processing line `n`: ranges recorded so far
are 1-based, ordered, disjoint and end before `n`; an open block started in
`[1, n)`, after every recorded range. -/
def ScanInv (n : Nat) (st : ScanSt) : Prop :=
  (∀ r ∈ st.acc, 1 ≤ r.1 ∧ r.1 ≤ r.2 ∧ r.2 < n) ∧
  List.Chain' (fun a b : Nat × Nat => a.2 < b.1) st.acc ∧
  (st.inPin = true → 1 ≤ st.startLine ∧ st.startLine < n ∧ ∀ r ∈ st.acc, r.2 < st.startLine)

/-- Two states that are both outside a timing block behave alike. -/
def OutEquiv (s t : CleanSt) : Prop := s = t ∨ (s.inT = false ∧ t.inT = false)

/-! # Theorems -/

theorem mem_of_mem_getLast? {α : Type} {l : List α} {x : α} (h : x ∈ l.getLast?) : x ∈ l := by
  obtain ⟨hne, rfl⟩ := List.mem_getLast?_eq_getLast h
  exact List.getLast_mem hne

theorem p2Go_length (ranges : List (Nat × Nat)) :
    ∀ (ls : List String) (st : P2St) (n : Nat), (p2Go ranges st n ls).length = ls.length := by
  intro ls
  induction ls with
  | nil => intro st n; rfl
  | cons l ls ih => intro st n; simp only [p2Go, List.length_cons]; rw [ih]

/-- One pass-1 step either leaves the ranges alone or appends a single
range ending at the current line; a block open afterwards started at the
current line or was already open. -/
theorem pinScanStep_shape (st : ScanSt) (n : Nat) (l : String) :
    ((pinScanStep st n l).acc = st.acc ∨
      ∃ sl, (pinScanStep st n l).acc = st.acc ++ [(sl, n)] ∧
        (sl = n ∨ (st.inPin = true ∧ sl = st.startLine))) ∧
    ((pinScanStep st n l).inPin = true →
      (pinScanStep st n l).acc = st.acc ∧
        ((pinScanStep st n l).startLine = n ∨
          (st.inPin = true ∧ (pinScanStep st n l).startLine = st.startLine))) := by
  unfold pinScanStep
  dsimp only
  split_ifs <;> simp_all

theorem pinScanStep_inv {st : ScanSt} {n : Nat} (hn : 1 ≤ n) (h : ScanInv n st) (l : String) :
    ScanInv (n + 1) (pinScanStep st n l) := by
  obtain ⟨hacc, hch, hopen⟩ := h
  obtain ⟨hshape, hpin⟩ := pinScanStep_shape st n l
  have haccle : ∀ sl, (sl = n ∨ (st.inPin = true ∧ sl = st.startLine)) →
      1 ≤ sl ∧ sl ≤ n ∧ ∀ r ∈ st.acc, r.2 < sl := by
    rintro sl (rfl | ⟨hin, rfl⟩)
    · exact ⟨hn, Nat.le_refl _, fun r hr => (hacc r hr).2.2⟩
    · obtain ⟨h1, h2, h3⟩ := hopen hin
      exact ⟨h1, Nat.le_of_lt h2, h3⟩
  refine ⟨?_, ?_, ?_⟩
  · intro r hr
    rcases hshape with heq | ⟨sl, heq, hsl⟩
    · rw [heq] at hr
      exact ⟨(hacc r hr).1, (hacc r hr).2.1, Nat.lt_succ_of_lt (hacc r hr).2.2⟩
    · rw [heq] at hr
      rcases List.mem_append.mp hr with hr | hr
      · exact ⟨(hacc r hr).1, (hacc r hr).2.1, Nat.lt_succ_of_lt (hacc r hr).2.2⟩
      · obtain ⟨h1, h2, _⟩ := haccle sl hsl
        simp only [List.mem_singleton] at hr
        subst hr
        exact ⟨h1, h2, Nat.lt_succ_self n⟩
  · rcases hshape with heq | ⟨sl, heq, hsl⟩
    · rw [heq]; exact hch
    · rw [heq]
      refine List.chain'_append.mpr ⟨hch, List.chain'_singleton _, ?_⟩
      intro x hx y hy
      simp only [List.head?_cons, Option.mem_def, Option.some.injEq] at hy
      subst hy
      exact (haccle sl hsl).2.2 x (mem_of_mem_getLast? hx)
  · intro hp
    obtain ⟨heq, hsl⟩ := hpin hp
    rw [heq]
    rcases hsl with h1 | ⟨hin, h1⟩
    · rw [h1]; exact ⟨hn, Nat.lt_succ_self n, fun r hr => (hacc r hr).2.2⟩
    · rw [h1]
      obtain ⟨a, b, c⟩ := hopen hin
      exact ⟨a, Nat.lt_succ_of_lt b, c⟩

theorem pinScanGo_inv (ls : List String) :
    ∀ (st : ScanSt) (n : Nat), 1 ≤ n → ScanInv n st →
      ScanInv (n + ls.length) (pinScanGo st n ls) := by
  induction ls with
  | nil => intro st n _ h; simpa using h
  | cons l ls ih =>
    intro st n hn h
    have h' := ih (pinScanStep st n l) (n + 1) (Nat.le_succ_of_le hn) (pinScanStep_inv hn h l)
    simp only [pinScanGo, List.length_cons]
    have : n + (ls.length + 1) = n + 1 + ls.length := by omega
    rw [this]
    exact h'

/-- **C6** (amended): the tools perform no brace-balance detection —
`find_output_pin_line_ranges` totally returns, on every input including
unbalanced ones, a list of 1-based spans that are ordered, disjoint and
contained in the file, and `process_lib_file` totally emits one output
line per input line, with no error path. -/
theorem c6_no_balance_detection (lines : List String) :
    (process_lib_file lines).length = lines.length ∧
    List.Chain' (fun a b : Nat × Nat => a.2 < b.1) (find_output_pin_line_ranges lines) ∧
    ∀ r ∈ find_output_pin_line_ranges lines, 1 ≤ r.1 ∧ r.1 ≤ r.2 ∧ r.2 ≤ lines.length := by
  have h0 : ScanInv 1 scanInit := by
    refine ⟨?_, ?_, ?_⟩ <;> simp [scanInit]
  have h := pinScanGo_inv lines scanInit 1 (Nat.le_refl 1) h0
  obtain ⟨hacc, hch, -⟩ := h
  refine ⟨p2Go_length _ lines p2Init 1, hch, ?_⟩
  intro r hr
  obtain ⟨h1, h2, h3⟩ := hacc r hr
  exact ⟨h1, h2, by omega⟩

/-- If no position of the input admits a token match, the substitution
scan copies it unchanged, whatever the fuel. -/
theorem scaleGo_id_of_freeGo (fuel : Nat) :
    ∀ (prev : Option Char) (cs : List Char), freeGo prev cs = false →
      scaleGo fuel prev cs = cs := by
  induction fuel with
  | zero => intro prev cs _; cases cs <;> rfl
  | succ n ih =>
    intro prev cs h
    cases cs with
    | nil => rfl
    | cons c rest =>
      simp only [freeGo, Bool.or_eq_false_iff] at h
      obtain ⟨h1, h2⟩ := h
      simp only [scaleGo]
      cases hlb : lookbehindOK prev with
      | false => simp [ih (some c) rest h2]
      | true =>
        cases hm : matchNumTok (c :: rest) with
        | none => simp [hm, ih (some c) rest h2]
        | some tok =>
          rw [hlb, hm] at h1
          simp at h1

/-- **C3** — corrected.  The original claim fails: the digits of a matched
scientific-notation token are adjacent to its `e` marker, a word
character, yet are rewritten.  On `" 1e3 "` the digit `1` is immediately
followed by the word character `e` and the digit `3` immediately preceded
by it, and the whole token is rescaled to `1`. -/
theorem c3_counterexample :
    scale_numbers_in_line " 1e3 " = " 1 " ∧
    isWordChar 'e' = true ∧ (" 1 " : String) ≠ " 1e3 " := by decide

/-- **C3** (amended): `scale_numbers_in_line` never alters a line that
contains no free-standing numeric token — no position at which the token
pattern matches with its word-character lookbehind and lookahead; in
particular a line whose digits occur only inside identifiers, such as
`delay_template_7x7_x1`, is returned byte-identical.  Digit sequences
adjacent to a word character can still change when that word character is
the `e`/`E` of a matched scientific-notation token. -/
theorem c3_identifier_digits_untouched (line : String)
    (h : hasFreeNumToken line = false) :
    scale_numbers_in_line line = line := by
  unfold scale_numbers_in_line
  rw [scaleGo_id_of_freeGo _ _ _ h]

theorem c3_identifier_digits_untouched_witness :
    hasFreeNumToken "delay_template_7x7_x1" = false ∧
    scale_numbers_in_line "delay_template_7x7_x1" = "delay_template_7x7_x1" :=
  ⟨by decide, c3_identifier_digits_untouched _ (by decide)⟩

/-- **C10** — confirmed.  The token pattern accepts an exponent sign only
when it is `-`: in `foo 1e+5 bar` the candidate starting at `1` is not
matched (the greedy token is the bare mantissa `1`, whose lookahead hits
the word character `e`), while the exponent digit `5` alone — preceded by
the non-word `+` — is matched and divided by 1000, so the line is
rewritten to `foo 1e+0.005 bar`. -/
theorem c10_positive_exponent_split :
    scale_numbers_in_line "foo 1e+5 bar" = "foo 1e+0.005 bar" ∧
    matchNumTok "1e+5 bar".data = none ∧
    matchNumTok "5 bar".data = some ⟨false, ['5'], false, [], false, false, []⟩ := by decide

/-- **C5** — corrected.  The claim fails at the rescale tool: its write
plan opens the destination directly and never uses a temporary file. -/
theorem c5_counterexample : atomicTempPlan fixWritePlan = false := by decide

/-- **C5** (amended): only the delete-block tool writes to a temporary
file and moves it into place after a full rewrite; the rescale tool and
the area substitution open the destination file itself for writing, so a
failure mid-write can leave it partially written. -/
theorem c5_only_clean_is_atomic :
    atomicTempPlan cleanWritePlan = true ∧
    atomicTempPlan fixWritePlan = false ∧
    atomicTempPlan updateWritePlan = false := by decide

/-- **C1** — corrected.  The values-sub-block flag of pass 2 is cleared
only by a `);` seen inside a selected span, so a `values (` left unclosed
when one output block ends makes the flag leak into the next output
block: there, the line `cap : 5;` — not an index line, and with no
`values (` opener anywhere in its own block — is nevertheless rescaled to
`cap : 0.005;`, though the claim requires it to be copied byte-for-byte. -/
theorem c1_counterexample :
    find_output_pin_line_ranges
        ["pin (A) \x7b", "direction : output;", "values (", "\x7d",
         "pin (B) \x7b", "direction : output;", "cap : 5;", "\x7d"] = [(1, 4), (5, 8)] ∧
    process_lib_file
        ["pin (A) \x7b", "direction : output;", "values (", "\x7d",
         "pin (B) \x7b", "direction : output;", "cap : 5;", "\x7d"] =
      ["pin (A) \x7b", "direction : output;", "values (", "\x7d",
       "pin (B) \x7b", "direction : output;", "cap : 0.005;", "\x7d"] ∧
    (∀ l ∈ (["pin (B) \x7b", "direction : output;", "cap : 5;"] : List String),
      containsSub l "values (" = false ∧ isIndexLine l = false) := by decide

/-- One pass-2 step agrees with the classifier step: the emitted line is
the input rescaled exactly when the classifier selects it, and the two
states evolve identically. -/
theorem p2Step_eq_c1Step (ranges : List (Nat × Nat)) (st : P2St) (n : Nat) (l : String) :
    p2Step ranges st n l =
      (if (c1Step ranges st n l).1 then scale_numbers_in_line l else l,
       (c1Step ranges st n l).2) := by
  unfold p2Step c1Step
  rcases hg : ranges.get? st.idx with _ | r
  · by_cases h : st.inR <;> simp [hg, h, Bool.or_assoc]
  · by_cases h1 : r.1 ≤ n
    · simp [hg, h1, Bool.or_assoc]
    · by_cases h : st.inR <;> simp [hg, h1, h, Bool.or_assoc]

theorem p2Go_eq_c1Go (ranges : List (Nat × Nat)) :
    ∀ (ls : List String) (st : P2St) (n : Nat),
      p2Go ranges st n ls =
        List.zipWith (fun b l => if b then scale_numbers_in_line l else l)
          (c1Go ranges st n ls) ls := by
  intro ls
  induction ls with
  | nil => intro st n; rfl
  | cons l ls ih =>
    intro st n
    simp only [p2Go, c1Go, List.zipWith]
    rw [p2Step_eq_c1Step]
    exact congrArg _ (ih _ _)

/-- **C1** (amended): pass 2 of `process_lib_file` applies
`scale_numbers_in_line` to exactly the lines its gating selects — a line
is transformed iff it lies inside a selected output span and, after the
line's own `values (` check, the values flag holds or the line starts
(after leading whitespace) with `index_1`/`index_2`; every other line is
emitted byte-for-byte.  The values flag is set by a `values (` and
cleared by a `);` seen on lines inside selected spans, and persists
across the gap between spans, so an unclosed `values (` sub-block leaks
into the next selected span.  The claim's concrete example holds: in a
selected block, `values ( "1.2, 3.4" );` becomes
`values ( "0.0012, 0.0034" );`. -/
theorem c1_gated_rescale (lines : List String) :
    process_lib_file lines =
      List.zipWith (fun b l => if b then scale_numbers_in_line l else l)
        (c1Scaled lines) lines ∧
    process_lib_file
        ["pin (X) \x7b", "direction : output;", "values ( \"1.2, 3.4\" );", "\x7d"] =
      ["pin (X) \x7b", "direction : output;", "values ( \"0.0012, 0.0034\" );", "\x7d"] :=
  ⟨p2Go_eq_c1Go _ lines p2Init 1, by decide⟩

/-- **C2** — corrected.  The loop sets the brace level to 1 on a header
line without counting that line's own braces, so the self-contained block
`timing ( ) { }` is not closed where its braces balance; the lines after
it are swallowed into the tracked block, and a later `}` closes it with
both condition flags set, deleting all four lines — although the only
complete timing block (line 1) satisfies neither condition and the other
lines lie outside every timing block. -/
theorem c2_counterexample :
    countChar "timing ( ) \x7b \x7d" '{' = 1 ∧ countChar "timing ( ) \x7b \x7d" '}' = 1 ∧
    hasClkPat (stripPy "timing ( ) \x7b \x7d") = false ∧
    hasSetupPat (stripPy "timing ( ) \x7b \x7d") = false ∧
    clean_lib_file
        ["timing ( ) \x7b \x7d", " related_pin : \"clk\";", " timing_type : setup_falling;", "\x7d"] =
      ([], 1) := by decide

/-- **C4** — corrected.  `re.subn` replaces every match: on a file with
two `area : <number> ;` lines the update succeeds (count 2) and rewrites
both, where the claim demands a reported failure and an unmodified
file. -/
theorem c4_counterexample :
    update_lib_file "  area : 0 ;\n  area : 1 ;\n" "12.75" =
      some "  area : 12.75 ;\n  area : 12.75 ;\n" ∧
    updateSubnCount "  area : 0 ;\n  area : 1 ;\n" "12.75" = 2 := by decide

/-- **C6** — corrected.  On an unbalanced input (total brace count 1, the
final `{` unmatched) the rescale tool reports nothing and still rewrites
the selected span — the claim demands a detected structural failure and
an unmodified file. -/
theorem c6_counterexample :
    ((["pin (A) \x7b", "direction : output;", "values ( 5 );", "\x7d", "\x7b"].map lineBrace).sum ≠ 0) ∧
    find_output_pin_line_ranges
        ["pin (A) \x7b", "direction : output;", "values ( 5 );", "\x7d", "\x7b"] = [(1, 4)] ∧
    process_lib_file ["pin (A) \x7b", "direction : output;", "values ( 5 );", "\x7d", "\x7b"] =
      ["pin (A) \x7b", "direction : output;", "values ( 0.005 );", "\x7d", "\x7b"] := by decide

/-- **C8** — corrected.  `LIB_AREA_RE` matches any `area : <number> ;`
line, including one the tool just wrote: re-running the update on its own
output finds the match again (count 1, reported as a success, not the
claimed zero changes) — though the rewrite is with the same value, so the
content happens to remain identical. -/
theorem c8_counterexample :
    update_lib_file "  area : 0 ;\n" "12.75" = some "  area : 12.75 ;\n" ∧
    updateSubnCount "  area : 12.75 ;\n" "12.75" = 1 ∧
    update_lib_file "  area : 12.75 ;\n" "12.75" = some "  area : 12.75 ;\n" := by decide

theorem cleanStep_hdr {st : CleanSt} {l : String}
    (h1 : timingHdr (stripPy l) = true) (h2 : st.inT = false) :
    cleanStep st l = ([], 0, ⟨true, 1, [l], false, false⟩) := by
  unfold cleanStep
  simp [h1, h2]

theorem cleanStep_out {st : CleanSt} {l : String}
    (h1 : timingHdr (stripPy l) = false) (h2 : st.inT = false) :
    cleanStep st l = ([l], 0, st) := by
  unfold cleanStep
  simp [h1, h2]

theorem cleanStep_in_open {st : CleanSt} {l : String}
    (h : st.inT = true) (hlvl : st.lvl + lineBrace l ≠ 0) :
    cleanStep st l =
      ([], 0, ⟨true, st.lvl + lineBrace l, st.buf ++ [l],
        st.fClk || hasClkPat (stripPy l), st.fSetup || hasSetupPat (stripPy l)⟩) := by
  unfold cleanStep
  have he : st.lvl + (countChar l '{' : Int) - (countChar l '}' : Int) = st.lvl + lineBrace l := by
    unfold lineBrace; omega
  simp [h, he, hlvl]

theorem cleanStep_in_close {st : CleanSt} {l : String}
    (h : st.inT = true) (hlvl : st.lvl + lineBrace l = 0) :
    cleanStep st l =
      (if (st.fClk || hasClkPat (stripPy l)) && (st.fSetup || hasSetupPat (stripPy l))
        then [] else st.buf ++ [l],
       if (st.fClk || hasClkPat (stripPy l)) && (st.fSetup || hasSetupPat (stripPy l))
        then 1 else 0,
       ⟨false, 0, [], st.fClk || hasClkPat (stripPy l), st.fSetup || hasSetupPat (stripPy l)⟩) := by
  unfold cleanStep
  have he : st.lvl + (countChar l '{' : Int) - (countChar l '}' : Int) = st.lvl + lineBrace l := by
    unfold lineBrace; omega
  simp only [h, Bool.not_true, Bool.and_false, Bool.false_eq_true, if_false, he, hlvl, if_true]
  split <;> simp

theorem cleanGo_append (xs ys : List String) :
    ∀ st : CleanSt, cleanGo st (xs ++ ys) =
      ((cleanGo st xs).1 ++ (cleanGo (cleanGo st xs).2.2 ys).1,
       (cleanGo st xs).2.1 + (cleanGo (cleanGo st xs).2.2 ys).2.1,
       (cleanGo (cleanGo st xs).2.2 ys).2.2) := by
  induction xs with
  | nil => intro st; simp [cleanGo]
  | cons x xs ih =>
    intro st
    simp only [List.cons_append, cleanGo, List.append_eq]
    rw [ih]
    simp [List.append_assoc, Nat.add_assoc]



theorem cleanGo_plain (ls : List String) :
    ∀ st : CleanSt, st.inT = false → (∀ l ∈ ls, timingHdr (stripPy l) = false) →
      cleanGo st ls = (ls, 0, st) := by
  induction ls with
  | nil => intro st _ _; rfl
  | cons l ls ih =>
    intro st hst h
    simp only [cleanGo]
    rw [cleanStep_out (h l (List.mem_cons_self l ls)) hst,
      ih st hst (fun x hx => h x (List.mem_cons_of_mem l hx))]
    simp


theorem cleanStep_equiv {s t : CleanSt} (h : OutEquiv s t) (l : String) :
    (cleanStep s l).1 = (cleanStep t l).1 ∧ (cleanStep s l).2.1 = (cleanStep t l).2.1 ∧
      OutEquiv (cleanStep s l).2.2 (cleanStep t l).2.2 := by
  rcases h with rfl | ⟨hs, ht⟩
  · exact ⟨rfl, rfl, Or.inl rfl⟩
  · by_cases hh : timingHdr (stripPy l) = true
    · rw [cleanStep_hdr hh hs, cleanStep_hdr hh ht]
      exact ⟨rfl, rfl, Or.inl rfl⟩
    · have hh' : timingHdr (stripPy l) = false := Bool.not_eq_true _ ▸ Bool.eq_false_iff.mpr hh
      rw [cleanStep_out hh' hs, cleanStep_out hh' ht]
      exact ⟨rfl, rfl, Or.inr ⟨hs, ht⟩⟩

theorem cleanGo_equiv (ls : List String) :
    ∀ {s t : CleanSt}, OutEquiv s t →
      (cleanGo s ls).1 = (cleanGo t ls).1 ∧ (cleanGo s ls).2.1 = (cleanGo t ls).2.1 := by
  induction ls with
  | nil => intro s t _; exact ⟨rfl, rfl⟩
  | cons l ls ih =>
    intro s t h
    obtain ⟨h1, h2, h3⟩ := cleanStep_equiv h l
    obtain ⟨h4, h5⟩ := ih h3
    simp only [cleanGo]
    exact ⟨by rw [h1, h4], by rw [h2, h5]⟩

/-- Processing a timing-block body from inside the block: lines are
buffered while the level stays nonzero, and at the final line (where the
level reaches 0) the whole buffer is flushed or discarded according to
the two accumulated flags. -/
theorem cleanGo_body (body : List String) :
    ∀ st : CleanSt, st.inT = true → body ≠ [] →
      (∀ k < body.length - 1, st.lvl + ((body.take (k + 1)).map lineBrace).sum ≠ 0) →
      st.lvl + (body.map lineBrace).sum = 0 →
      cleanGo st body =
        (if (st.fClk || body.any fun l => hasClkPat (stripPy l)) &&
            (st.fSetup || body.any fun l => hasSetupPat (stripPy l))
          then [] else st.buf ++ body,
         if (st.fClk || body.any fun l => hasClkPat (stripPy l)) &&
            (st.fSetup || body.any fun l => hasSetupPat (stripPy l))
          then 1 else 0,
         ⟨false, 0, [],
          st.fClk || body.any fun l => hasClkPat (stripPy l),
          st.fSetup || body.any fun l => hasSetupPat (stripPy l)⟩) := by
  induction body with
  | nil => intro st _ hne _ _; exact absurd rfl hne
  | cons l rest ih =>
    intro st hst _ hmid hfin
    cases rest with
    | nil =>
      have hlvl : st.lvl + lineBrace l = 0 := by simpa using hfin
      simp only [cleanGo]
      rw [cleanStep_in_close hst hlvl]
      simp [cleanGo]
    | cons r rs =>
      have h0 : st.lvl + lineBrace l ≠ 0 := by
        have := hmid 0 (by simp)
        simpa using this
      have hone : cleanGo st [l] =
          ([], 0, ⟨true, st.lvl + lineBrace l, st.buf ++ [l],
            st.fClk || hasClkPat (stripPy l), st.fSetup || hasSetupPat (stripPy l)⟩) := by
        simp only [cleanGo]
        rw [cleanStep_in_open hst h0]
        simp
      have h1 : ∀ k < (r :: rs).length - 1,
          st.lvl + lineBrace l + (((r :: rs).take (k + 1)).map lineBrace).sum ≠ 0 := by
        intro k hk
        have hm := hmid (k + 1) (by simp only [List.length_cons] at hk ⊢; omega)
        simp only [List.take_succ_cons, List.map_cons, List.sum_cons] at hm ⊢
        omega
      have h2 : st.lvl + lineBrace l + (((r :: rs)).map lineBrace).sum = 0 := by
        simp only [List.map_cons, List.sum_cons] at hfin ⊢
        omega
      have ihx := ih ⟨true, st.lvl + lineBrace l, st.buf ++ [l],
          st.fClk || hasClkPat (stripPy l), st.fSetup || hasSetupPat (stripPy l)⟩
        rfl (by simp) h1 h2
      rw [show (l :: r :: rs) = [l] ++ (r :: rs) from rfl, cleanGo_append, hone]
      rw [ihx]
      simp [Bool.or_assoc, List.append_assoc]


theorem clean_lib_file_eq (ls : List String) :
    clean_lib_file ls = ((cleanGo cleanInit ls).1, (cleanGo cleanInit ls).2.1) := rfl

/-- Processing a complete timing block from any outside state: the block
is emitted verbatim or dropped entirely according to the removal
condition, after which the machine is outside a block again. -/
theorem cleanGo_block {st : CleanSt} (hst : st.inT = false) {blk : List String}
    (hb : isTimingBlockB blk = true) :
    cleanGo st blk =
      (if removableBlockB blk then [] else blk,
       if removableBlockB blk then 1 else 0,
       ⟨false, 0, [],
        blk.tail.any fun l => hasClkPat (stripPy l),
        blk.tail.any fun l => hasSetupPat (stripPy l)⟩) := by
  cases blk with
  | nil => simp [isTimingBlockB] at hb
  | cons hd body =>
    simp only [isTimingBlockB, Bool.and_eq_true, List.all_eq_true, List.mem_range,
      Bool.not_eq_true', beq_iff_eq] at hb
    obtain ⟨⟨⟨hhdr, hbne⟩, hmid⟩, hfin⟩ := hb
    have hbody : body ≠ [] := by
      intro hc; rw [hc] at hbne; simp at hbne
    have hone : cleanGo st [hd] = ([], 0, ⟨true, 1, [hd], false, false⟩) := by
      simp only [cleanGo]
      rw [cleanStep_hdr hhdr hst]
      simp
    have h1 : ∀ k < body.length - 1,
        (1 : Int) + ((body.take (k + 1)).map lineBrace).sum ≠ 0 := by
      intro k hk
      have h := hmid k hk
      unfold timingLevel at h
      simpa using h
    have h2 : (1 : Int) + (body.map lineBrace).sum = 0 := by
      unfold timingLevel at hfin
      simpa using hfin
    have ihx := cleanGo_body body ⟨true, 1, [hd], false, false⟩ rfl hbody h1 h2
    rw [show (hd :: body) = [hd] ++ body from rfl, cleanGo_append, hone, ihx]
    simp only [removableBlockB, List.tail_cons]
    simp

/-- Processing a body that never closes: every line is buffered, nothing
is emitted, no block is counted, and the machine stays inside. -/
theorem cleanGo_openBody (body : List String) :
    ∀ st : CleanSt, st.inT = true →
      (∀ k < body.length, st.lvl + ((body.take (k + 1)).map lineBrace).sum ≠ 0) →
      ∃ lvl fc fs, cleanGo st body = ([], 0, ⟨true, lvl, st.buf ++ body, fc, fs⟩) := by
  induction body with
  | nil =>
    intro st hst _
    refine ⟨st.lvl, st.fClk, st.fSetup, ?_⟩
    simp only [cleanGo, List.append_nil]
    rw [show (⟨true, st.lvl, st.buf, st.fClk, st.fSetup⟩ : CleanSt) = st from ?_]
    · cases st; simp_all
  | cons l rest ih =>
    intro st hst hmid
    have h0 : st.lvl + lineBrace l ≠ 0 := by simpa using hmid 0 (by simp)
    have h1 : ∀ k < rest.length,
        st.lvl + lineBrace l + ((rest.take (k + 1)).map lineBrace).sum ≠ 0 := by
      intro k hk
      have hm := hmid (k + 1) (by simp only [List.length_cons]; omega)
      simp only [List.take_succ_cons, List.map_cons, List.sum_cons] at hm ⊢
      omega
    obtain ⟨lvl, fc, fs, hres⟩ := ih ⟨true, st.lvl + lineBrace l, st.buf ++ [l],
        st.fClk || hasClkPat (stripPy l), st.fSetup || hasSetupPat (stripPy l)⟩ rfl h1
    refine ⟨lvl, fc, fs, ?_⟩
    simp only [cleanGo]
    rw [cleanStep_in_open hst h0, hres]
    simp


/-- **C2** (amended): on input decomposed as `pre ++ blk ++ post` where
`pre` leaves the loop outside a timing block and `blk` is a well-formed
timing block — its header contributes the single opening brace counted as
level 1, and its body first returns the level to 0 exactly at its last
line — `clean_lib_file` removes `blk` in full if and only if some body
line matches `related_pin : "clk";` and some body line matches
`timing_type : setup_falling;` (both exact-value patterns: the first does
not accept `related_pin : "clk_gated";`); otherwise `blk` is emitted
unchanged, and the rest of the file is processed as if `blk` were not
there. -/
theorem c2_conditional_deletion (pre blk post : List String)
    (hpre : (cleanGo cleanInit pre).2.2.inT = false)
    (hblk : isTimingBlockB blk = true) :
    clean_lib_file (pre ++ blk ++ post) =
      ((clean_lib_file pre).1 ++ (if removableBlockB blk then [] else blk) ++
         (clean_lib_file post).1,
       (clean_lib_file pre).2 + (if removableBlockB blk then 1 else 0) +
         (clean_lib_file post).2) ∧
    hasClkPat "related_pin : \"clk\";" = true ∧
    hasClkPat "related_pin : \"clk_gated\";" = false ∧
    hasSetupPat "timing_type : setup_falling;" = true := by
  refine ⟨?_, by decide, by decide, by decide⟩
  simp only [clean_lib_file_eq]
  rw [List.append_assoc, cleanGo_append pre (blk ++ post), cleanGo_append blk post,
    cleanGo_block hpre hblk]
  have heq := cleanGo_equiv post (s := (⟨false, 0, [],
      blk.tail.any fun l => hasClkPat (stripPy l),
      blk.tail.any fun l => hasSetupPat (stripPy l)⟩ : CleanSt)) (t := cleanInit)
    (Or.inr ⟨rfl, rfl⟩)
  simp only [Prod.fst, Prod.snd]
  rw [heq.1, heq.2]
  simp [List.append_assoc, Nat.add_assoc]

theorem c2_conditional_deletion_witness :
    (cleanGo cleanInit ["cell (top) \x7b"]).2.2.inT = false ∧
    isTimingBlockB ["timing ( ) \x7b", "related_pin : \"clk\";",
      "timing_type : setup_falling;", "\x7d"] = true ∧
    clean_lib_file (["cell (top) \x7b"] ++
        ["timing ( ) \x7b", "related_pin : \"clk\";", "timing_type : setup_falling;", "\x7d"] ++
        ["\x7d"]) =
      ((clean_lib_file ["cell (top) \x7b"]).1 ++
         (if removableBlockB ["timing ( ) \x7b", "related_pin : \"clk\";",
              "timing_type : setup_falling;", "\x7d"] then []
          else ["timing ( ) \x7b", "related_pin : \"clk\";",
              "timing_type : setup_falling;", "\x7d"]) ++
         (clean_lib_file ["\x7d"]).1,
       (clean_lib_file ["cell (top) \x7b"]).2 +
         (if removableBlockB ["timing ( ) \x7b", "related_pin : \"clk\";",
              "timing_type : setup_falling;", "\x7d"] then 1 else 0) +
         (clean_lib_file ["\x7d"]).2) :=
  ⟨by decide, by decide, (c2_conditional_deletion _ _ _ (by decide) (by decide)).1⟩

/-- **C9** — confirmed: when the input ends while a timing block is still
open (the header matched and the level never returns to 0), every line
from the header to the end of the input sits in the buffer and is omitted
from the written output, the removed-blocks count is not incremented, and
the loop simply ends — the truncated output still replaces the file. -/
theorem c9_unclosed_block_dropped (pre blk : List String)
    (hpre : (cleanGo cleanInit pre).2.2.inT = false)
    (hblk : isOpenBlockB blk = true) :
    clean_lib_file (pre ++ blk) = clean_lib_file pre ∧
    (cleanGo cleanInit (pre ++ blk)).2.2.buf = blk ∧
    (cleanGo cleanInit (pre ++ blk)).2.2.inT = true := by
  cases blk with
  | nil => simp [isOpenBlockB] at hblk
  | cons hd body =>
    simp only [isOpenBlockB, Bool.and_eq_true, List.all_eq_true, List.mem_range] at hblk
    obtain ⟨hhdr, hmid⟩ := hblk
    have h1 : ∀ k < body.length, (1 : Int) + ((body.take (k + 1)).map lineBrace).sum ≠ 0 := by
      intro k hk
      have h := hmid k hk
      unfold timingLevel at h
      simpa using h
    obtain ⟨lvl, fc, fs, hres⟩ :=
      cleanGo_openBody body ⟨true, 1, [hd], false, false⟩ rfl h1
    have hone : cleanGo (cleanGo cleanInit pre).2.2 (hd :: body) =
        ([], 0, ⟨true, lvl, hd :: body, fc, fs⟩) := by
      simp only [cleanGo]
      rw [cleanStep_hdr hhdr hpre, hres]
      simp
    refine ⟨?_, ?_, ?_⟩
    · simp only [clean_lib_file_eq]
      rw [cleanGo_append, hone]
      simp
    · rw [cleanGo_append, hone]
    · rw [cleanGo_append, hone]

theorem c9_unclosed_block_dropped_witness :
    (cleanGo cleanInit ["cell (top) \x7b"]).2.2.inT = false ∧
    isOpenBlockB ["timing ( ) \x7b", "related_pin : \"clk\";"] = true ∧
    clean_lib_file (["cell (top) \x7b"] ++ ["timing ( ) \x7b", "related_pin : \"clk\";"]) =
      clean_lib_file ["cell (top) \x7b"] :=
  ⟨by decide, by decide,
    (c9_unclosed_block_dropped _ _ (by decide) (by decide)).1⟩

theorem cleanGo_segs (segs : List LibSeg) :
    ∀ st : CleanSt, st.inT = false → segs.all LibSeg.wf = true →
      (cleanGo st (segsJoin segs)).1.length + removedLines segs = (segsJoin segs).length ∧
      (cleanGo st (segsJoin segs)).2.2.inT = false := by
  induction segs with
  | nil =>
    intro st hst _
    simp [segsJoin, cleanGo, removedLines, hst]
  | cons s rest ih =>
    intro st hst hwf
    simp only [List.all_cons, Bool.and_eq_true] at hwf
    have hj : segsJoin (s :: rest) = s.lines ++ segsJoin rest := by
      simp [segsJoin]
    rw [hj, cleanGo_append]
    cases s with
    | plain ls =>
      have hsw : ∀ l ∈ ls, timingHdr (stripPy l) = false := by
        have h := hwf.1
        simp only [LibSeg.wf, List.all_eq_true, Bool.not_eq_true'] at h
        exact h
      simp only [LibSeg.lines]
      rw [cleanGo_plain ls st hst hsw]
      obtain ⟨ha, hb⟩ := ih st hst hwf.2
      refine ⟨?_, by simpa using hb⟩
      simp only [removedLines, List.map_cons, List.sum_cons, List.length_append,
        LibSeg.lines]
      simp only [removedLines] at ha
      omega
    | tblock ls =>
      have hbt : isTimingBlockB ls = true := hwf.1
      simp only [LibSeg.lines]
      rw [cleanGo_block hst hbt]
      obtain ⟨ha, hb⟩ := ih ⟨false, 0, [],
          ls.tail.any fun l => hasClkPat (stripPy l),
          ls.tail.any fun l => hasSetupPat (stripPy l)⟩ rfl hwf.2
      refine ⟨?_, by simpa using hb⟩
      simp only [removedLines, List.map_cons, List.sum_cons, List.length_append,
        LibSeg.lines]
      simp only [removedLines] at ha
      by_cases hrm : removableBlockB ls = true <;>
        simp only [hrm, if_true, if_false, Bool.false_eq_true, List.length_append,
          List.length_nil] <;> omega

/-- **C7** — confirmed: on every input the rescale rewriter emits exactly
one output line per input line; on every input that decomposes into
header-free chunks and well-formed timing blocks, the delete-block
rewriter emits exactly the input line count minus the total number of
lines of removed blocks. -/
theorem c7_line_accounting :
    (∀ lines : List String, (process_lib_file lines).length = lines.length) ∧
    (∀ segs : List LibSeg, segs.all LibSeg.wf = true →
      (clean_lib_file (segsJoin segs)).1.length = (segsJoin segs).length - removedLines segs) := by
  refine ⟨fun lines => p2Go_length _ lines p2Init 1, fun segs h => ?_⟩
  have := (cleanGo_segs segs cleanInit rfl h).1
  simp only [clean_lib_file_eq]
  omega

theorem c7_line_accounting_witness :
    ([LibSeg.plain ["cell (top) \x7b"],
      LibSeg.tblock ["timing ( ) \x7b", "related_pin : \"clk\";",
        "timing_type : setup_falling;", "\x7d"],
      LibSeg.plain ["\x7d"]].all LibSeg.wf = true) ∧
    (clean_lib_file (segsJoin
        [LibSeg.plain ["cell (top) \x7b"],
         LibSeg.tblock ["timing ( ) \x7b", "related_pin : \"clk\";",
           "timing_type : setup_falling;", "\x7d"],
         LibSeg.plain ["\x7d"]])).1.length =
      (segsJoin
        [LibSeg.plain ["cell (top) \x7b"],
         LibSeg.tblock ["timing ( ) \x7b", "related_pin : \"clk\";",
           "timing_type : setup_falling;", "\x7d"],
         LibSeg.plain ["\x7d"]]).length -
        removedLines
          [LibSeg.plain ["cell (top) \x7b"],
           LibSeg.tblock ["timing ( ) \x7b", "related_pin : \"clk\";",
             "timing_type : setup_falling;", "\x7d"],
           LibSeg.plain ["\x7d"]] :=
  ⟨by decide, c7_line_accounting.2 _ (by decide)⟩

theorem ws_not_areaNum {c : Char} (h : isPyWS c = true) : isAreaNumChar c = false := by
  simp only [isPyWS, Bool.or_eq_true, decide_eq_true_eq] at h
  rcases h with ((((h | h) | h) | h) | h) | h <;> subst h <;> decide

theorem dropWhile_ws_append {xs : List Char} (h : ∀ x ∈ xs, isPyWS x = true) (ys : List Char) :
    (xs ++ ys).dropWhile isPyWS = ys.dropWhile isPyWS := by
  induction xs with
  | nil => rfl
  | cons c t ih =>
    simp only [List.cons_append, List.dropWhile_cons, h c (List.mem_cons_self c t), if_true]
    exact ih (fun x hx => h x (List.mem_cons_of_mem c hx))

theorem dropWhile_cons_neg {p : Char → Bool} {c : Char} (h : p c = false) (ys : List Char) :
    (c :: ys).dropWhile p = c :: ys := by
  simp [List.dropWhile_cons, h]

theorem takeWhile_num_append {xs : List Char} (h : ∀ x ∈ xs, isAreaNumChar x = true)
    (ys : List Char) :
    (xs ++ ys).takeWhile isAreaNumChar = xs ++ ys.takeWhile isAreaNumChar := by
  induction xs with
  | nil => rfl
  | cons c t ih =>
    simp only [List.cons_append, List.takeWhile_cons, h c (List.mem_cons_self c t), if_true]
    rw [ih (fun x hx => h x (List.mem_cons_of_mem c hx))]

theorem takeWhile_cons_neg {p : Char → Bool} {c : Char} (h : p c = false) (ys : List Char) :
    (c :: ys).takeWhile p = [] := by
  simp [List.takeWhile_cons, h]

theorem dropLitCI_append {lit xs : List Char} (h : dropLitCI lit xs = some [])
    (ys : List Char) : dropLitCI lit (xs ++ ys) = some ys := by
  induction lit generalizing xs with
  | nil =>
    simp only [dropLitCI, Option.some.injEq] at h
    subst h
    rfl
  | cons p ps ih =>
    cases xs with
    | nil => simp [dropLitCI] at h
    | cons c t =>
      simp only [dropLitCI] at h ⊢
      by_cases hc : ciEq c p = true
      · simp only [hc, if_true] at h ⊢
        exact ih h
      · simp only [Bool.not_eq_true] at hc
        simp [hc] at h



theorem num_not_ws {c : Char} (h : isAreaNumChar c = true) : isPyWS c = false := by
  by_cases hw : isPyWS c = true
  · rw [ws_not_areaNum hw] at h; exact absurd h (by simp)
  · simpa using hw

theorem aw_ne_nil {aw : List Char} (h : dropLitCI "area".data aw = some []) : aw ≠ [] := by
  intro hc
  subst hc
  simp [dropLitCI, String.data] at h

/-- The matcher succeeds on a valid chunk's matched text, whatever follows,
returning the group lengths of the decomposition. -/
theorem areaMatch_chunk {c : AreaChunk} (h : c.ok = true) (rest : List Char) :
    areaMatch true (c.matched ++ rest) =
      some (c.g1.length, c.num.length, c.ws4.length + 1) := by
  simp only [AreaChunk.ok, Bool.and_eq_true, beq_iff_eq, List.all_eq_true,
    Bool.not_eq_true'] at h
  obtain ⟨⟨⟨⟨⟨⟨⟨hws1, haw⟩, hawws⟩, hws2⟩, hws3⟩, hnumne⟩, hnum⟩, hws4⟩ := h
  have hsplit : c.matched ++ rest =
      c.ws1 ++ (c.aw ++ (c.ws2 ++ (':' :: (c.ws3 ++ (c.num ++ (c.ws4 ++ (';' :: rest))))))) := by
    simp [AreaChunk.matched, AreaChunk.g1, List.append_assoc]
  obtain ⟨a0, at0, haweq⟩ : ∃ a0 at0, c.aw = a0 :: at0 := by
    cases hx : c.aw with
    | nil => exact absurd hx (aw_ne_nil haw)
    | cons a0 at0 => exact ⟨a0, at0, rfl⟩
  obtain ⟨n0, nt0, hnumeq⟩ : ∃ n0 nt0, c.num = n0 :: nt0 := by
    cases hx : c.num with
    | nil => rw [hx] at hnumne; simp at hnumne
    | cons n0 nt0 => exact ⟨n0, nt0, rfl⟩
  have hr1 : (c.matched ++ rest).dropWhile isPyWS =
      c.aw ++ (c.ws2 ++ (':' :: (c.ws3 ++ (c.num ++ (c.ws4 ++ (';' :: rest)))))) := by
    rw [hsplit, dropWhile_ws_append hws1]
    rw [haweq]
    exact dropWhile_cons_neg (hawws a0 (by rw [haweq]; exact List.mem_cons_self a0 at0)) _
  have hr2 : dropLitCI "area".data
      (c.aw ++ (c.ws2 ++ (':' :: (c.ws3 ++ (c.num ++ (c.ws4 ++ (';' :: rest))))))) =
      some (c.ws2 ++ (':' :: (c.ws3 ++ (c.num ++ (c.ws4 ++ (';' :: rest)))))) :=
    dropLitCI_append haw _
  have hr3 : (c.ws2 ++ (':' :: (c.ws3 ++ (c.num ++ (c.ws4 ++ (';' :: rest)))))).dropWhile
      isPyWS = ':' :: (c.ws3 ++ (c.num ++ (c.ws4 ++ (';' :: rest)))) := by
    rw [dropWhile_ws_append hws2]
    exact dropWhile_cons_neg (by decide) _
  have hr5 : (c.ws3 ++ (c.num ++ (c.ws4 ++ (';' :: rest)))).dropWhile isPyWS =
      c.num ++ (c.ws4 ++ (';' :: rest)) := by
    rw [dropWhile_ws_append hws3, hnumeq]
    exact dropWhile_cons_neg (num_not_ws (hnum n0 (by rw [hnumeq]; exact List.mem_cons_self n0 nt0))) _
  have htw : (c.num ++ (c.ws4 ++ (';' :: rest))).takeWhile isAreaNumChar = c.num := by
    rw [takeWhile_num_append hnum]
    cases hw4 : c.ws4 with
    | nil =>
      simp only [List.nil_append]
      rw [takeWhile_cons_neg (by decide) rest, List.append_nil]
    | cons w0 wt =>
      simp only [List.cons_append]
      rw [takeWhile_cons_neg (ws_not_areaNum (hws4 w0 (by rw [hw4]; exact List.mem_cons_self w0 wt))) _,
        List.append_nil]
  have hdr : (c.num ++ (c.ws4 ++ (';' :: rest))).drop c.num.length = c.ws4 ++ (';' :: rest) :=
    List.drop_left ..
  have hr7 : (c.ws4 ++ (';' :: rest)).dropWhile isPyWS = ';' :: rest := by
    rw [dropWhile_ws_append hws4]
    exact dropWhile_cons_neg (by decide) _
  unfold areaMatch
  simp only [Bool.not_true, Bool.false_eq_true, if_false, hr1, hr2, hr3, hr5, htw, hdr, hr7,
    hnumne, Option.some.injEq, Prod.mk.injEq]
  refine ⟨?_, trivial, ?_⟩
  · show (c.matched ++ rest).length - (c.num ++ (c.ws4 ++ (';' :: rest))).length = c.g1.length
    simp only [AreaChunk.matched, AreaChunk.g1, List.length_append, List.length_cons,
      List.length_nil]
    omega
  · simp only [List.length_append, List.length_cons]
    omega



/-- Scanning through text that admits no match copies it and continues
with the anchor it induces. -/
theorem subnAreaGo_plain (u : List Char) :
    ∀ (fuel : Nat) (anch : Bool) (rest repl : List Char),
      plainScanB anch u rest = true → (u ++ rest).length ≤ fuel →
      subnAreaGo fuel anch (u ++ rest) repl =
        (u ++ (subnAreaGo (fuel - u.length) (anchAfter anch u) rest repl).1,
         (subnAreaGo (fuel - u.length) (anchAfter anch u) rest repl).2) := by
  induction u with
  | nil => intro fuel anch rest repl _ _; rfl
  | cons c t ih =>
    intro fuel anch rest repl hscan hfuel
    cases fuel with
    | zero => simp at hfuel
    | succ f =>
      simp only [plainScanB, Bool.and_eq_true, Bool.not_eq_true'] at hscan
      obtain ⟨hnm, hrest⟩ := hscan
      have hnone : areaMatch anch (c :: (t ++ rest)) = none :=
        Option.not_isSome_iff_eq_none.mp (by rw [hnm]; simp)
      simp only [List.cons_append, subnAreaGo, List.append_eq, hnone]
      rw [ih f (decide (c = '\n')) rest repl hrest (by simpa using hfuel)]
      simp only [List.length_cons, anchAfter]
      have he : f + 1 - (t.length + 1) = f - t.length := by omega
      rw [he]

theorem matched_ne_nil (c : AreaChunk) : c.matched ≠ [] := by
  simp only [AreaChunk.matched]
  intro h
  have := congrArg List.length h
  simp [List.length_append] at this

theorem matched_length (c : AreaChunk) :
    c.matched.length = c.g1.length + c.num.length + c.ws4.length + 1 := by
  simp [AreaChunk.matched, List.length_append]
  omega

theorem matched_getLast (c : AreaChunk) : c.matched.getLast? = some ';' := by
  have h : c.matched = (c.g1 ++ (c.num ++ c.ws4)) ++ [';'] := by
    simp [AreaChunk.matched, List.append_assoc]
  rw [h, List.getLast?_concat]

/-- One substitution step at a valid chunk's match: group 1, the
replacement and group 2 are emitted and the scan resumes after the `;`
with the anchor off. -/
theorem subnAreaGo_match {c : AreaChunk} (hok : c.ok = true) (R repl : List Char) (f : Nat)
    (hf : (c.matched ++ R).length ≤ f) :
    subnAreaGo f true (c.matched ++ R) repl =
      (c.g1 ++ repl ++ (c.ws4 ++ [';']) ++ (subnAreaGo (f - 1) false R repl).1,
       (subnAreaGo (f - 1) false R repl).2 + 1) := by
  obtain ⟨m0, mt, hm⟩ : ∃ m0 mt, c.matched ++ R = m0 :: mt := by
    cases hx : c.matched ++ R with
    | nil =>
      exfalso
      rcases List.append_eq_nil.mp hx with ⟨h1, -⟩
      exact matched_ne_nil c h1
    | cons m0 mt => exact ⟨m0, mt, rfl⟩
  cases f with
  | zero =>
    exfalso
    rw [hm] at hf
    simp at hf
  | succ f' =>
    have hmatch := areaMatch_chunk hok R
    have htot : c.g1.length + c.num.length + (c.ws4.length + 1) = c.matched.length := by
      rw [matched_length]; omega
    have hsplit : c.matched ++ R =
        c.g1 ++ (c.num ++ (c.ws4 ++ (';' :: R))) := by
      simp [AreaChunk.matched, List.append_assoc]
    have htake1 : (c.matched ++ R).take c.g1.length = c.g1 := by
      rw [hsplit]
      exact List.take_left ..
    have hdrop1 : (c.matched ++ R).drop (c.g1.length + c.num.length) =
        c.ws4 ++ (';' :: R) := by
      rw [hsplit, List.drop_append, List.drop_left]
    have htake2 : (c.ws4 ++ (';' :: R)).take (c.ws4.length + 1) = c.ws4 ++ [';'] := by
      rw [List.take_append]
      simp
    have hdropall : (c.matched ++ R).drop c.matched.length = R := List.drop_left ..
    have htakeall : (c.matched ++ R).take c.matched.length = c.matched := List.take_left ..
    rw [hm]
    simp only [subnAreaGo, ← hm, hmatch]
    rw [htot, htakeall, matched_getLast, htake1, hdrop1, htake2]
    have hdr : mt.drop (c.matched.length - 1) = R := by
      have : (m0 :: mt).drop c.matched.length = R := by rw [← hm]; exact hdropall
      cases hml : c.matched.length with
      | zero =>
        exfalso
        have := matched_length c
        omega
      | succ k =>
        rw [hml] at this
        simpa using this
    rw [hdr]
    simp



/-- The full `re.subn` scan on a chunk decomposition: every chunk's match
is replaced and counted, everything else is copied. -/
theorem subnAreaGo_chunks (chunks : List AreaChunk) :
    ∀ (w : List Char) (anch : Bool) (repl : List Char) (fuel : Nat),
      chunksScanOK anch chunks w = true → (chunksText chunks w).length ≤ fuel →
      subnAreaGo fuel anch (chunksText chunks w) repl =
        (chunksReplaced repl chunks w, chunks.length) := by
  induction chunks with
  | nil =>
    intro w anch repl fuel hscan hfuel
    simp only [chunksText] at hfuel ⊢
    simp only [chunksScanOK] at hscan
    have := subnAreaGo_plain w fuel anch [] repl (by simpa using hscan) (by simpa using hfuel)
    simp only [List.append_nil] at this
    rw [this]
    cases hf : fuel - w.length <;> simp [subnAreaGo, chunksReplaced, List.length_nil]
  | cons c cs ih =>
    intro w anch repl fuel hscan hfuel
    simp only [chunksScanOK, Bool.and_eq_true] at hscan
    obtain ⟨⟨⟨hok, hplain⟩, hanch⟩, hrest⟩ := hscan
    have hsplit : chunksText (c :: cs) w = c.u ++ (c.matched ++ chunksText cs w) := by
      simp [chunksText, AreaChunk.text, List.append_assoc]
    rw [hsplit] at hfuel ⊢
    rw [subnAreaGo_plain c.u fuel anch (c.matched ++ chunksText cs w) repl hplain hfuel]
    rw [hanch]
    have hf2 : (c.matched ++ chunksText cs w).length ≤ fuel - c.u.length := by
      simp only [List.length_append] at hfuel ⊢
      omega
    rw [subnAreaGo_match hok (chunksText cs w) repl (fuel - c.u.length) hf2]
    have hf3 : (chunksText cs w).length ≤ fuel - c.u.length - 1 := by
      have hml := matched_length c
      simp only [List.length_append] at hfuel hf2 ⊢
      omega
    rw [ih w false repl (fuel - c.u.length - 1) hrest hf3]
    simp only [chunksReplaced, AreaChunk.replaced, List.length_cons]
    simp [List.append_assoc]

/-- **C4** (amended): `update_lib_file` fails (warns and leaves the file
unwritten) exactly when `LIB_AREA_RE` matches nowhere; when it matches —
once or several times, each match being group 1 (`\s*area\s*:\s*`), a
`[0-9.]+` number, and group 2 (`\s*;`) at an anchored position — every
match is rewritten with the new value between its preserved groups, and
success is reported with the match count.  In particular a single-match
file is rewritten only at that line, with prefix and suffix preserved. -/
theorem c4_subn_characterisation (chunks : List AreaChunk) (w : List Char) (repl : String)
    (h : chunksScanOK true chunks w = true) :
    update_lib_file (String.mk (chunksText chunks w)) repl =
      (if chunks.isEmpty then none
       else some (String.mk (chunksReplaced repl.data chunks w))) ∧
    updateSubnCount (String.mk (chunksText chunks w)) repl = chunks.length := by
  have hm := subnAreaGo_chunks chunks w true repl.data (chunksText chunks w).length h
    (Nat.le_refl _)
  unfold update_lib_file updateSubnCount
  simp only [String.mk] at *
  rw [hm]
  cases chunks <;> simp

theorem c4_subn_characterisation_witness :
    chunksScanOK true
        [⟨"cell (m) \x7b\n".data, "  ".data, "area".data, [' '], [' '], ['0'], [' ']⟩]
        "\n\x7d\n".data = true ∧
    update_lib_file (String.mk (chunksText
        [⟨"cell (m) \x7b\n".data, "  ".data, "area".data, [' '], [' '], ['0'], [' ']⟩]
        "\n\x7d\n".data)) "12.75" =
      (if ([⟨"cell (m) \x7b\n".data, "  ".data, "area".data, [' '], [' '], ['0'], [' ']⟩] :
          List AreaChunk).isEmpty then none
       else some (String.mk (chunksReplaced "12.75".data
        [⟨"cell (m) \x7b\n".data, "  ".data, "area".data, [' '], [' '], ['0'], [' ']⟩]
        "\n\x7d\n".data))) :=
  ⟨by decide, (c4_subn_characterisation _ _ _ (by decide)).1⟩

theorem simSafe_spec {cs : List Char} (h : simSafe cs = true) :
    cs ≠ [] ∧ ∀ c ∈ cs, isAreaNumChar c = true ∧ isPyWS c = false ∧
      ciEq c 'a' = false ∧ ciEq c 'r' = false ∧ ciEq c 'e' = false ∧
      c ≠ ':' ∧ c ≠ ';' := by
  simp only [simSafe, Bool.and_eq_true, List.all_eq_true, Bool.not_eq_true',
    List.isEmpty_eq_false_iff_exists_mem, beq_eq_false_iff_ne, ne_eq] at h
  obtain ⟨h1, h2⟩ := h
  refine ⟨?_, ?_⟩
  · rintro rfl
    simp at h1
  · intro c hc
    have := h2 c hc
    tauto

theorem nrel_refl {num repl T : List Char} (X : List Char) : NRel num repl T X X :=
  Or.inl rfl

theorem nrel_base {num repl T : List Char} (d : List Char) :
    NRel num repl T (d ++ num ++ T) (d ++ repl ++ T) :=
  Or.inr ⟨d, rfl, rfl⟩

theorem nrel_dropWhile {num repl T : List Char}
    (hn : simSafe num = true) (hr : simSafe repl = true) {X Y : List Char}
    (h : NRel num repl T X Y) :
    NRel num repl T (X.dropWhile isPyWS) (Y.dropWhile isPyWS) := by
  rcases h with rfl | ⟨d, rfl, rfl⟩
  · exact nrel_refl _
  · induction d with
    | nil =>
      obtain ⟨hne, hall⟩ := simSafe_spec hn
      obtain ⟨hne', hall'⟩ := simSafe_spec hr
      cases num with
      | nil => exact absurd rfl hne
      | cons n0 nt =>
        cases repl with
        | nil => exact absurd rfl hne'
        | cons r0 rt =>
          simp only [List.nil_append, List.cons_append, List.dropWhile_cons,
            (hall n0 (List.mem_cons_self n0 nt)).2.1,
            (hall' r0 (List.mem_cons_self r0 rt)).2.1, Bool.false_eq_true, if_false]
          exact nrel_base []
    | cons c d ih =>
      by_cases hc : isPyWS c = true
      · simpa [List.cons_append, List.dropWhile_cons, hc] using ih
      · have hc' : isPyWS c = false := by simpa using hc
        simp only [List.cons_append, List.dropWhile_cons, hc', Bool.false_eq_true, if_false]
        exact nrel_base (c :: d)

theorem nrel_headChar (ch : Char) {num repl T : List Char}
    (hn : ∀ c ∈ num, c ≠ ch) (hr : ∀ c ∈ repl, c ≠ ch)
    (hnne : num ≠ []) (hrne : repl ≠ []) {X Y : List Char}
    (h : NRel num repl T X Y) :
    (∃ X' Y', X = ch :: X' ∧ Y = ch :: Y' ∧ NRel num repl T X' Y') ∨
    ((∀ X', X ≠ ch :: X') ∧ (∀ Y', Y ≠ ch :: Y')) := by
  rcases h with rfl | ⟨d, rfl, rfl⟩
  · cases X with
    | nil => exact Or.inr ⟨fun _ h => List.noConfusion h, fun _ h => List.noConfusion h⟩
    | cons c t =>
      by_cases hc : c = ch
      · subst hc
        exact Or.inl ⟨t, t, rfl, rfl, nrel_refl t⟩
      · refine Or.inr ⟨fun X' hx => hc ?_, fun Y' hy => hc ?_⟩
        · injection hx with h1 _
        · injection hy with h1 _
  · cases d with
    | nil =>
      cases num with
      | nil => exact absurd rfl hnne
      | cons n0 nt =>
        cases repl with
        | nil => exact absurd rfl hrne
        | cons r0 rt =>
          refine Or.inr ⟨fun X' hx => hn n0 (List.mem_cons_self n0 nt) ?_,
            fun Y' hy => hr r0 (List.mem_cons_self r0 rt) ?_⟩
          · injection hx with h1 _
          · injection hy with h1 _
    | cons c d' =>
      by_cases hc : c = ch
      · subst hc
        exact Or.inl ⟨d' ++ num ++ T, d' ++ repl ++ T, rfl, rfl, nrel_base d'⟩
      · refine Or.inr ⟨fun X' hx => hc ?_, fun Y' hy => hc ?_⟩
        · injection hx with h1 _
        · injection hy with h1 _

theorem nrel_litCI (lit : List Char) {num repl T : List Char}
    (hnne : num ≠ []) (hrne : repl ≠ []) :
    ∀ {X Y : List Char},
      (∀ p ∈ lit, (∀ c ∈ num, ciEq c p = false) ∧ (∀ c ∈ repl, ciEq c p = false)) →
      NRel num repl T X Y →
      ((dropLitCI lit X).isSome = (dropLitCI lit Y).isSome) ∧
      ∀ X' Y', dropLitCI lit X = some X' → dropLitCI lit Y = some Y' →
        NRel num repl T X' Y' := by
  induction lit with
  | nil =>
    intro X Y _ h
    simp only [dropLitCI, Option.isSome_some, Option.some.injEq]
    exact ⟨trivial, fun X' Y' hx hy => hx ▸ hy ▸ h⟩
  | cons p ps ih =>
    intro X Y hlit h
    rcases h with rfl | ⟨d, rfl, rfl⟩
    · cases X with
      | nil => simp [dropLitCI]
      | cons c t =>
        simp only [dropLitCI]
        by_cases hc : ciEq c p = true
        · simp only [hc, if_true]
          exact ⟨trivial, (ih (fun q hq => hlit q (List.mem_cons_of_mem p hq)) (nrel_refl t)).2⟩
        · have hc' : ciEq c p = false := by simpa using hc
          simp [hc']
    · cases d with
      | nil =>
        obtain ⟨n0, nt, hne⟩ : ∃ n0 nt, num = n0 :: nt := by
          cases num with
          | nil => exact absurd rfl hnne
          | cons a b => exact ⟨a, b, rfl⟩
        obtain ⟨r0, rt, hre⟩ : ∃ r0 rt, repl = r0 :: rt := by
          cases repl with
          | nil => exact absurd rfl hrne
          | cons a b => exact ⟨a, b, rfl⟩
        have e1 : ciEq n0 p = false :=
          (hlit p (List.mem_cons_self p ps)).1 n0 (by rw [hne]; exact List.mem_cons_self n0 nt)
        have e2 : ciEq r0 p = false :=
          (hlit p (List.mem_cons_self p ps)).2 r0 (by rw [hre]; exact List.mem_cons_self r0 rt)
        rw [hne, hre]
        simp [dropLitCI, e1, e2]
      | cons c d' =>
        simp only [List.cons_append, dropLitCI]
        by_cases hc : ciEq c p = true
        · simp only [hc, if_true]
          exact ih (fun q hq => hlit q (List.mem_cons_of_mem p hq)) (nrel_base d')
        · have hc' : ciEq c p = false := by simpa using hc
          simp [hc']

theorem nrel_takeNum {num repl T : List Char}
    (hn : simSafe num = true) (hr : simSafe repl = true)
    {X Y : List Char} (h : NRel num repl T X Y) :
    ((X.takeWhile isAreaNumChar).isEmpty = (Y.takeWhile isAreaNumChar).isEmpty) ∧
    NRel num repl T (X.drop (X.takeWhile isAreaNumChar).length)
      (Y.drop (Y.takeWhile isAreaNumChar).length) := by
  rcases h with rfl | ⟨d, rfl, rfl⟩
  · exact ⟨rfl, nrel_refl _⟩
  · induction d with
    | nil =>
      obtain ⟨hne, hall⟩ := simSafe_spec hn
      obtain ⟨hne', hall'⟩ := simSafe_spec hr
      have hX : (num ++ T).takeWhile isAreaNumChar = num ++ T.takeWhile isAreaNumChar :=
        takeWhile_num_append (fun x hx => (hall x hx).1) T
      have hY : (repl ++ T).takeWhile isAreaNumChar = repl ++ T.takeWhile isAreaNumChar :=
        takeWhile_num_append (fun x hx => (hall' x hx).1) T
      simp only [List.nil_append, hX, hY]
      constructor
      · cases num with
        | nil => exact absurd rfl hne
        | cons n0 nt =>
          cases repl with
          | nil => exact absurd rfl hne'
          | cons r0 rt => simp
      · simp only [List.length_append, List.drop_append]
        exact nrel_refl _
    | cons c d' ih =>
      by_cases hc : isAreaNumChar c = true
      · simp only [List.cons_append, List.takeWhile_cons, hc, if_true, List.isEmpty_cons,
          List.length_cons, List.drop_succ_cons]
        exact ⟨trivial, ih.2⟩
      · have hc' : isAreaNumChar c = false := by simpa using hc
        simp only [List.cons_append, List.takeWhile_cons, hc', Bool.false_eq_true, if_false,
          List.isEmpty_nil, List.length_nil, List.drop_zero]
        exact ⟨trivial, nrel_base (c :: d')⟩

theorem areaMatch_nrel {num repl T : List Char}
    (hn : simSafe num = true) (hr : simSafe repl = true) (anch : Bool)
    {X Y : List Char} (h : NRel num repl T X Y) :
    (areaMatch anch X).isSome = (areaMatch anch Y).isSome := by
  obtain ⟨hnne, hnall⟩ := simSafe_spec hn
  obtain ⟨hrne, hrall⟩ := simSafe_spec hr
  cases anch with
  | false => simp [areaMatch]
  | true =>
    unfold areaMatch
    simp only [Bool.not_true, Bool.false_eq_true, if_false]
    have hlit : ∀ p ∈ ("area".data),
        (∀ c ∈ num, ciEq c p = false) ∧ (∀ c ∈ repl, ciEq c p = false) := by
      intro p hp
      have hp' : p = 'a' ∨ p = 'r' ∨ p = 'e' ∨ p = 'a' := by simpa using hp
      constructor
      · intro c hc
        obtain ⟨-, -, e1, e2, e3, -, -⟩ := hnall c hc
        rcases hp' with rfl | rfl | rfl | rfl <;> assumption
      · intro c hc
        obtain ⟨-, -, e1, e2, e3, -, -⟩ := hrall c hc
        rcases hp' with rfl | rfl | rfl | rfl <;> assumption
    have s1 := nrel_dropWhile hn hr h
    have s2 := nrel_litCI "area".data hnne hrne hlit s1
    cases hX2 : dropLitCI "area".data (X.dropWhile isPyWS) with
    | none =>
      have hY2 : dropLitCI "area".data (Y.dropWhile isPyWS) = none := by
        have h1 := s2.1
        rw [hX2] at h1
        cases hY : dropLitCI "area".data (Y.dropWhile isPyWS) with
        | none => rfl
        | some z => rw [hY] at h1; simp at h1
      simp [hX2, hY2]
    | some r2X =>
      obtain ⟨r2Y, hY2⟩ : ∃ z, dropLitCI "area".data (Y.dropWhile isPyWS) = some z := by
        have h1 := s2.1
        rw [hX2] at h1
        cases hY : dropLitCI "area".data (Y.dropWhile isPyWS) with
        | none => rw [hY] at h1; simp at h1
        | some z => exact ⟨z, rfl⟩
      have s3 := nrel_dropWhile hn hr (s2.2 r2X r2Y hX2 hY2)
      have hcolon := nrel_headChar ':'
        (fun c hc => (hnall c hc).2.2.2.2.2.1) (fun c hc => (hrall c hc).2.2.2.2.2.1)
        hnne hrne s3
      rcases hcolon with ⟨X4, Y4, hX4, hY4, s4⟩ | ⟨hnoX, hnoY⟩
      · have s5 := nrel_dropWhile hn hr s4
        have s6 := nrel_takeNum hn hr s5
        by_cases hemp : (List.takeWhile isAreaNumChar (X4.dropWhile isPyWS)).isEmpty = true
        · have hemp' : (List.takeWhile isAreaNumChar (Y4.dropWhile isPyWS)).isEmpty = true := by
            rw [← s6.1]; exact hemp
          simp [hX2, hY2, hX4, hY4, hemp, hemp']
        · have hempX : (List.takeWhile isAreaNumChar (X4.dropWhile isPyWS)).isEmpty = false := by
            simpa using hemp
          have hempY : (List.takeWhile isAreaNumChar (Y4.dropWhile isPyWS)).isEmpty = false := by
            rw [← s6.1]; exact hempX
          have s7 := nrel_dropWhile hn hr s6.2
          have hsemi := nrel_headChar ';'
            (fun c hc => (hnall c hc).2.2.2.2.2.2) (fun c hc => (hrall c hc).2.2.2.2.2.2)
            hnne hrne s7
          rcases hsemi with ⟨X8, Y8, hX8, hY8, -⟩ | ⟨hnoX2, hnoY2⟩
          · simp [hX2, hY2, hX4, hY4, hempX, hempY, hX8, hY8]
          · simp only [hX2, hY2, hX4, hY4, hempX, hempY, Bool.false_eq_true, if_false]
      · simp only [hX2, hY2]

theorem plainScanB_nrel {num repl : List Char}
    (hn : simSafe num = true) (hr : simSafe repl = true) (g T : List Char) :
    ∀ (u : List Char) (anch : Bool),
      plainScanB anch u (g ++ (num ++ T)) = plainScanB anch u (g ++ (repl ++ T)) := by
  intro u
  induction u with
  | nil => intro anch; rfl
  | cons c t ih =>
    intro anch
    have hrel : NRel num repl T (c :: (t ++ (g ++ (num ++ T))))
        (c :: (t ++ (g ++ (repl ++ T)))) := by
      refine Or.inr ⟨c :: (t ++ g), ?_, ?_⟩ <;> simp [List.append_assoc]
    have hm := areaMatch_nrel hn hr anch hrel
    simp only [plainScanB, hm, ih]

/-- **C8** (amended): re-running the area substitution on already-updated
content matches the rewritten `area : <value> ;` line again (the pattern
accepts any `[0-9.]+` value, not only the original), replaces it with the
same formatted value — count 1, reported as success — and the resulting
content is byte-identical to the input of the second run. -/
theorem c8_rerun_stable (ch : AreaChunk) (w : List Char) (repl : String)
    (h : chunksScanOK true [ch] w = true)
    (hn : simSafe ch.num = true) (hr : simSafe repl.data = true) :
    update_lib_file (String.mk (chunksText [ch] w)) repl =
      some (String.mk (chunksReplaced repl.data [ch] w)) ∧
    update_lib_file (String.mk (chunksReplaced repl.data [ch] w)) repl =
      some (String.mk (chunksReplaced repl.data [ch] w)) ∧
    updateSubnCount (String.mk (chunksReplaced repl.data [ch] w)) repl = 1 := by
  obtain ⟨hrne, hrall⟩ := simSafe_spec hr
  have h1 := subnAreaGo_chunks [ch] w true repl.data (chunksText [ch] w).length h
    (Nat.le_refl _)
  have hcomp : chunksScanOK true [ch] w =
      (ch.ok && plainScanB true ch.u (ch.matched ++ w) &&
       anchAfter true ch.u && plainScanB false w []) := by
    simp [chunksScanOK, chunksText]
  rw [hcomp] at h
  simp only [Bool.and_eq_true] at h
  obtain ⟨⟨⟨hok, hplain⟩, hanch⟩, hw⟩ := h
  have hok' : (⟨ch.u, ch.ws1, ch.aw, ch.ws2, ch.ws3, repl.data, ch.ws4⟩ : AreaChunk).ok
      = true := by
    simp only [AreaChunk.ok, Bool.and_eq_true] at hok ⊢
    obtain ⟨⟨⟨⟨⟨⟨⟨o1, o2⟩, o3⟩, o4⟩, o5⟩, -⟩, -⟩, o8⟩ := hok
    refine ⟨⟨⟨⟨⟨⟨⟨o1, o2⟩, o3⟩, o4⟩, o5⟩, ?_⟩, ?_⟩, o8⟩
    · simp only [Bool.not_eq_true', List.isEmpty_eq_false]
      exact hrne
    · simp only [List.all_eq_true]
      intro c hc
      exact (hrall c hc).1
  have e1 : ch.matched ++ w = ch.g1 ++ (ch.num ++ (ch.ws4 ++ ';' :: w)) := by
    simp [AreaChunk.matched, List.append_assoc]
  have e2 : (⟨ch.u, ch.ws1, ch.aw, ch.ws2, ch.ws3, repl.data, ch.ws4⟩ : AreaChunk).matched
      ++ w = ch.g1 ++ (repl.data ++ (ch.ws4 ++ ';' :: w)) := by
    simp [AreaChunk.matched, AreaChunk.g1, List.append_assoc]
  have hplain' :
      plainScanB true ch.u
        ((⟨ch.u, ch.ws1, ch.aw, ch.ws2, ch.ws3, repl.data, ch.ws4⟩ : AreaChunk).matched
          ++ w) = true := by
    rw [e2, ← plainScanB_nrel hn hr ch.g1 (ch.ws4 ++ ';' :: w) ch.u true, ← e1]
    exact hplain
  have hscan' : chunksScanOK true
      [⟨ch.u, ch.ws1, ch.aw, ch.ws2, ch.ws3, repl.data, ch.ws4⟩] w = true := by
    simp only [chunksScanOK, chunksText, Bool.and_eq_true]
    exact ⟨⟨⟨hok', hplain'⟩, hanch⟩, hw⟩
  have htext : chunksText [⟨ch.u, ch.ws1, ch.aw, ch.ws2, ch.ws3, repl.data, ch.ws4⟩] w =
      chunksReplaced repl.data [ch] w := by
    simp [chunksText, chunksReplaced, AreaChunk.text, AreaChunk.matched,
      AreaChunk.replaced, AreaChunk.g1, List.append_assoc]
  have hrep : chunksReplaced repl.data
      [⟨ch.u, ch.ws1, ch.aw, ch.ws2, ch.ws3, repl.data, ch.ws4⟩] w =
      chunksReplaced repl.data [ch] w := by
    simp [chunksReplaced, AreaChunk.replaced, AreaChunk.g1]
  have h2 := subnAreaGo_chunks [⟨ch.u, ch.ws1, ch.aw, ch.ws2, ch.ws3, repl.data, ch.ws4⟩]
    w true repl.data
    (chunksText [⟨ch.u, ch.ws1, ch.aw, ch.ws2, ch.ws3, repl.data, ch.ws4⟩] w).length
    hscan' (Nat.le_refl _)
  rw [htext, hrep] at h2
  refine ⟨?_, ?_, ?_⟩
  · unfold update_lib_file
    simp only [String.mk]
    rw [h1]
    simp
  · unfold update_lib_file
    simp only [String.mk]
    rw [h2]
    simp
  · unfold updateSubnCount
    simp only [String.mk]
    rw [h2]
    simp

theorem c8_rerun_stable_witness :
    update_lib_file (String.mk (chunksText
        [⟨"cell (m) \x7b\n".data, "  ".data, "area".data, [' '], [' '], ['0'], [' ']⟩]
        "\n\x7d\n".data)) "12.75" =
      some (String.mk (chunksReplaced "12.75".data
        [⟨"cell (m) \x7b\n".data, "  ".data, "area".data, [' '], [' '], ['0'], [' ']⟩]
        "\n\x7d\n".data)) ∧
    update_lib_file (String.mk (chunksReplaced "12.75".data
        [⟨"cell (m) \x7b\n".data, "  ".data, "area".data, [' '], [' '], ['0'], [' ']⟩]
        "\n\x7d\n".data)) "12.75" =
      some (String.mk (chunksReplaced "12.75".data
        [⟨"cell (m) \x7b\n".data, "  ".data, "area".data, [' '], [' '], ['0'], [' ']⟩]
        "\n\x7d\n".data)) ∧
    updateSubnCount (String.mk (chunksReplaced "12.75".data
        [⟨"cell (m) \x7b\n".data, "  ".data, "area".data, [' '], [' '], ['0'], [' ']⟩]
        "\n\x7d\n".data)) "12.75" = 1 :=
  c8_rerun_stable
    ⟨"cell (m) \x7b\n".data, "  ".data, "area".data, [' '], [' '], ['0'], [' ']⟩
    "\n\x7d\n".data "12.75" (by decide) (by decide) (by decide)

end Asap7
